import Mathlib

/-!
A shallow embedding of the go-car v2 CAR blockstore (package `v2/blockstore`,
files `readonly.go` and `readwrite.go`), together with proofs about its
read/write, deduplication, finalization and resumption behaviour.

Bytes are modelled as natural numbers, byte strings as lists.  Collaborator
code that the blockstore calls but that lives outside the package under
verification (varint codec, CID codec, the carv1 header codec, the in-memory
insertion index, the carv2 header arithmetic) is modelled from the
specification, as flagged on each definition.  All fallible operations return
`Except`/`Option` values; the Go panics of the read-only variant are embedded
as the `writeOnReadOnly` error outcome.
-/

namespace GoCar

/-- Byte strings are lists of naturals (each byte being < 256 in practice). -/
abbrev Bytes := List Nat

/-- Modelled from the spec: unsigned LEB128 (varint) encoder, written with
explicit fuel so that it is structurally recursive (the low 7 bits come
first, with the continuation bit 0x80 set on all but the last byte). -/
def varintEncodeGo : Nat → Nat → Bytes
  | _, 0 => []
  | n, fuel + 1 =>
    if n < 128 then [n] else (n % 128 + 128) :: varintEncodeGo (n / 128) fuel

/-- Modelled from the spec: the varint encoding of `n`. -/
def varintEncode (n : Nat) : Bytes := varintEncodeGo n (n + 1)

/-- Modelled from the spec: varint decoder; returns the value and the
remaining bytes, or `none` at end of input or on a truncated group. -/
def varintDecode : Bytes → Option (Nat × Bytes)
  | [] => none
  | b :: rest =>
    if b < 128 then some (b, rest)
    else
      match varintDecode rest with
      | some (v, r) => some (v * 128 + (b - 128), r)
      | none => none

theorem varintDecode_encodeGo (fuel : Nat) :
    ∀ n, n < fuel → ∀ rest, varintDecode (varintEncodeGo n fuel ++ rest) = some (n, rest) := by
  induction fuel with
  | zero => intro n h; omega
  | succ f ih =>
    intro n hn rest
    unfold varintEncodeGo
    by_cases h : n < 128
    · rw [if_pos h]
      show varintDecode (n :: rest) = some (n, rest)
      unfold varintDecode
      rw [if_pos h]
    · have hf : n / 128 < f := by omega
      rw [if_neg h]
      show varintDecode ((n % 128 + 128) :: (varintEncodeGo (n / 128) f ++ rest)) = some (n, rest)
      unfold varintDecode
      have hge : ¬ (n % 128 + 128 < 128) := by omega
      rw [if_neg hge, ih (n / 128) hf rest]
      simp only [Option.some.injEq, Prod.mk.injEq]
      exact ⟨by omega, trivial⟩

theorem varintDecode_encode (n : Nat) (rest : Bytes) :
    varintDecode (varintEncode n ++ rest) = some (n, rest) :=
  varintDecode_encodeGo (n + 1) n (Nat.lt_succ_self n) rest

theorem varintDecode_shrink : ∀ (bs : Bytes) v r, varintDecode bs = some (v, r) →
    r.length < bs.length := by
  intro bs
  induction bs with
  | nil => intro v r h; simp [varintDecode] at h
  | cons b rest ih =>
    intro v r h
    unfold varintDecode at h
    by_cases hb : b < 128
    · rw [if_pos hb] at h
      simp only [Option.some.injEq, Prod.mk.injEq] at h
      rw [← h.2]
      simp
    · rw [if_neg hb] at h
      cases hd : varintDecode rest with
      | none => rw [hd] at h; exact absurd h (by simp)
      | some p =>
        rw [hd] at h
        obtain ⟨v0, r0⟩ := p
        have hr := ih v0 r0 hd
        simp only [Option.some.injEq, Prod.mk.injEq] at h
        rw [← h.2]
        simp only [List.length_cons]
        omega

theorem varintEncode_ne_nil (n : Nat) : varintEncode n ≠ [] := by
  unfold varintEncode varintEncodeGo
  by_cases h : n < 128 <;> simp [h]

/-- A content identifier: codec tag plus a multihash (algorithm and digest).
Mirrors `cid.Cid` as used by the blockstore (always CIDv1 here). -/
structure Cid where
  codec : Nat
  hashAlgo : Nat
  digest : Bytes
deriving DecidableEq

/-- Modelled from the spec: the multihash bytes of a CID (`Cid.Hash()` in Go):
varint algorithm code, varint digest length, digest. -/
def Cid.hash (c : Cid) : Bytes :=
  varintEncode c.hashAlgo ++ varintEncode c.digest.length ++ c.digest

/-- Modelled from the spec: the binary form of a CIDv1 (`Cid.Bytes()` in Go):
varint version (1), varint codec, multihash bytes. -/
def Cid.bytes (c : Cid) : Bytes :=
  varintEncode 1 ++ varintEncode c.codec ++ c.hash

/-- Modelled from the spec: CID decoder (`cid.CidFromBytes` / `CidFromReader`).
Returns the CID, the number of bytes consumed, and the remaining bytes. -/
def cidFromBytes (bs : Bytes) : Option (Cid × Nat × Bytes) :=
  match varintDecode bs with
  | some (1, r1) =>
    match varintDecode r1 with
    | some (codec, r2) =>
      match varintDecode r2 with
      | some (algo, r3) =>
        match varintDecode r3 with
        | some (dlen, r4) =>
          if dlen ≤ r4.length then
            some (⟨codec, algo, r4.take dlen⟩, bs.length - r4.length + dlen, r4.drop dlen)
          else none
        | none => none
      | none => none
    | none => none
  | _ => none

theorem cidFromBytes_encode (c : Cid) (rest : Bytes) :
    cidFromBytes (c.bytes ++ rest) = some (c, c.bytes.length, rest) := by
  have h1 : c.digest.length ≤ (c.digest ++ rest).length := by simp
  simp only [Cid.bytes, Cid.hash, List.append_assoc, cidFromBytes, varintDecode_encode,
    if_pos h1, List.take_left, List.drop_left, Option.some.injEq, Prod.mk.injEq]
  refine ⟨trivial, ?_, trivial⟩
  simp only [List.length_append]
  omega

theorem cidBytes_ne_nil (c : Cid) : c.bytes ≠ [] := by
  simp only [Cid.bytes]
  intro h
  exact varintEncode_ne_nil 1 (List.append_eq_nil.mp (List.append_eq_nil.mp h).1).1

/-- A block: a CID plus its raw payload (`blocks.Block` in Go). -/
structure Block where
  cid : Cid
  rawData : Bytes
deriving DecidableEq

/-- Modelled from the spec: the on-disk section written by `util.LdWrite`:
varint of the total length, CID bytes, payload bytes. -/
def sectionBytes (c : Cid) (p : Bytes) : Bytes :=
  varintEncode (c.bytes.length + p.length) ++ c.bytes ++ p

/-- Modelled from the spec: `util.LdRead` — decode a length varint and read
that many bytes, failing if the input is shorter. -/
def ldRead (bs : Bytes) : Option (Bytes × Bytes) :=
  match varintDecode bs with
  | none => none
  | some (l, r) => if l ≤ r.length then some (r.take l, r.drop l) else none

/-- Modelled from the spec: `util.ReadNode` — read one section and split it
into the CID and the payload. -/
def readNode (bs : Bytes) : Option (Cid × Bytes) :=
  match ldRead bs with
  | none => none
  | some (data, _) =>
    match cidFromBytes data with
    | none => none
    | some (c, n, _) => some (c, data.drop n)

theorem ldRead_section (c : Cid) (p rest : Bytes) :
    ldRead (sectionBytes c p ++ rest) = some (c.bytes ++ p, rest) := by
  have h : c.bytes.length + p.length ≤ (c.bytes ++ (p ++ rest)).length := by simp
  simp only [sectionBytes, List.append_assoc, ldRead, varintDecode_encode, if_pos h]
  have h2 : c.bytes ++ (p ++ rest) = (c.bytes ++ p) ++ rest := by simp
  have h3 : c.bytes.length + p.length = (c.bytes ++ p).length := by simp
  rw [h2, h3, List.take_left, List.drop_left]

theorem readNode_section (c : Cid) (p rest : Bytes) :
    readNode (sectionBytes c p ++ rest) = some (c, p) := by
  simp only [readNode, ldRead_section, cidFromBytes_encode, List.drop_left]

theorem sectionBytes_length (c : Cid) (p : Bytes) :
    (sectionBytes c p).length =
      (varintEncode (c.bytes.length + p.length)).length + c.bytes.length + p.length := by
  simp [sectionBytes]
  omega

/-- Read options of the blockstore (`carv2.ReadOptions` fields used here). -/
structure ReadOptions where
  blockstoreUseWholeCIDs : Bool := false
  zeroLengthSectionAsEOF : Bool := false
deriving DecidableEq

/-- Write options of the blockstore (`carv2.WriteOptions` fields used here). -/
structure WriteOptions where
  blockstoreAllowDuplicatePuts : Bool := false
  dataPadding : Nat := 0
  indexPadding : Nat := 0
deriving DecidableEq

/-- Domain-level error outcomes of the blockstore operations. -/
inductive BsErr where
  | notFound
  | finalized
  | finalizedTwice
  | writeOnReadOnly
  | resumeOnVersion (v : Nat)
  | paddingMismatch (want got : Nat)
  | corruptHeader
  | headerMismatch
  | truncated
  | badCid
  | zeroLenSection
  | readFailed
  | writeFailed
deriving DecidableEq

/-- Modelled from the spec: the in-memory insertion index (`insertionIndex`,
not under src): a flat list of (CID, offset) records in insertion order. -/
abbrev InsertionIndex : Type := List (Cid × Nat)

/-- Modelled from the spec: `insertNoReplace` appends a record. -/
def insertNoReplace (ii : InsertionIndex) (c : Cid) (off : Nat) : InsertionIndex :=
  ii ++ [(c, off)]

/-- Modelled from the spec: `insertionIndex.Get` returns the offset of the
first record whose multihash matches, in insertion order. -/
def iiGet (ii : InsertionIndex) (c : Cid) : Option Nat :=
  (List.find? (fun e => decide (e.1.hash = c.hash)) ii).map (fun e => e.2)

/-- Modelled from the spec: `insertionIndex.hasExactCID` checks for a record
whose whole CID equals the given one. -/
def hasExactCID (ii : InsertionIndex) (c : Cid) : Bool :=
  List.any ii (fun e => decide (e.1 = c))

/-- Modelled from the spec: the offsets `insertionIndex.GetAll` feeds to the
visitor — all records whose multihash matches the key, in insertion order. -/
def candidates (ii : InsertionIndex) (key : Cid) : List Nat :=
  (List.filter (fun e => decide (e.1.hash = key.hash)) ii).map (fun e => e.2)

/-- Modelled from the spec: the fixed CARv2 pragma size in bytes. -/
def pragmaSize : Nat := 11

/-- Modelled from the spec: the fixed CARv2 header size in bytes. -/
def v2HeaderSize : Nat := 40

/-- The CARv2 header record: data offset, data size, index offset.
(Characteristics are never consulted by the blockstore and are omitted.) -/
structure Header where
  dataOffset : Nat
  dataSize : Nat
  indexOffset : Nat
deriving DecidableEq

/-- Modelled from the spec: `carv2.NewHeader(0)` adjusted by the padding
options — data offset is pragma + header + data padding, and the index
offset additionally allows for the index padding. -/
def mkHeader (dp ip : Nat) : Header :=
  ⟨pragmaSize + v2HeaderSize + dp, 0, pragmaSize + v2HeaderSize + dp + ip⟩

/-- Modelled from the spec: `Header.WithDataSize` records the data size and
shifts the index offset past the data. -/
def withDataSize (h : Header) (s : Nat) : Header :=
  { h with dataSize := s, indexOffset := h.indexOffset + s }

/-- Header fields are uint64 in Go; this is 64-bit wraparound subtraction. -/
def sub64 (a b : Nat) : Nat := (2 ^ 64 + a - b) % 2 ^ 64

/-- The inner CARv1 data header: list of roots plus format version. -/
structure CarHeader where
  roots : List Cid
  version : Nat
deriving DecidableEq

/-- Modelled from the spec: concatenated binary roots of a v1 header. -/
def rootsEnc : List Cid → Bytes
  | [] => []
  | c :: t => c.bytes ++ rootsEnc t

/-- Modelled from the spec: serialized v1 data header (`carv1.WriteHeader`):
a length-framed body holding the version and the root CIDs. -/
def v1HeaderBytes (roots : List Cid) (version : Nat) : Bytes :=
  let body := varintEncode version ++ varintEncode roots.length ++ rootsEnc roots
  varintEncode body.length ++ body

/-- Modelled from the spec: read `k` consecutive binary CIDs. -/
def readRootsGo : Nat → Bytes → Option (List Cid × Bytes)
  | 0, bs => some ([], bs)
  | k + 1, bs =>
    match cidFromBytes bs with
    | none => none
    | some (c, _, r) =>
      match readRootsGo k r with
      | none => none
      | some (cs, r2) => some (c :: cs, r2)

/-- Modelled from the spec: `carv1.ReadHeader` — read the length-framed v1
data header and decode its version and roots. -/
def readV1Header (bs : Bytes) : Option (CarHeader × Bytes) :=
  match ldRead bs with
  | none => none
  | some (body, rest) =>
    match varintDecode body with
    | none => none
    | some (ver, r1) =>
      match varintDecode r1 with
      | none => none
      | some (cnt, r2) =>
        match readRootsGo cnt r2 with
        | none => none
        | some (cs, _) => some (⟨cs, ver⟩, rest)

/-- Modelled from the spec: `carv1.HeaderSize` re-serializes the header and
takes the length. -/
def carv1HeaderSize (h : CarHeader) : Nat := (v1HeaderBytes h.roots h.version).length

/-- Read a section's length varint and its CID, as `ReadOnly.Has` does
(straight off the backing, not bounded by the section length). -/
def readSecHead (bs : Bytes) : Option Cid :=
  match varintDecode bs with
  | none => none
  | some (_, r1) =>
    match cidFromBytes r1 with
    | none => none
    | some (c, _, _) => some c

/-- Read a section's length varint, CID byte length and CID, as
`ReadOnly.GetSize` does. -/
def readSizeHead (bs : Bytes) : Option (Nat × Nat × Cid) :=
  match varintDecode bs with
  | none => none
  | some (l, r1) =>
    match cidFromBytes r1 with
    | none => none
    | some (c, n, _) => some (l, n, c)

/-- The visitor loop of `ReadOnly.Has` over the candidate offsets: under
whole-CID matching it keeps looking until the stored CID equals the key;
under multihash matching it stops at the first candidate. -/
def hasVisit (useWhole : Bool) (data : Bytes) (key : Cid) : List Nat → Except BsErr Bool
  | [] => .ok false
  | off :: rest =>
    match readSecHead (data.drop off) with
    | none => .error .readFailed
    | some rc =>
      if useWhole then
        if rc = key then .ok true else hasVisit useWhole data key rest
      else .ok (decide (rc.hash = key.hash))

/-- The visitor loop of `ReadOnly.Get`: the result is the payload found, or
`none` when the loop stopped without a match. -/
def getVisit (useWhole : Bool) (data : Bytes) (key : Cid) : List Nat → Except BsErr (Option Bytes)
  | [] => .ok none
  | off :: rest =>
    match readNode (data.drop off) with
    | none => .error .readFailed
    | some (rc, pl) =>
      if useWhole then
        if rc = key then .ok (some pl) else getVisit useWhole data key rest
      else
        if decide (rc.hash = key.hash) then .ok (some pl) else .ok none

/-- The visitor loop of `ReadOnly.GetSize`: the recorded size is the section
length minus the CID byte length (Go `int` arithmetic). -/
def sizeVisit (useWhole : Bool) (data : Bytes) (key : Cid) : List Nat → Except BsErr (Option Int)
  | [] => .ok none
  | off :: rest =>
    match readSizeHead (data.drop off) with
    | none => .error .readFailed
    | some (l, n, rc) =>
      if useWhole then
        if rc = key then .ok (some ((l : Int) - (n : Int))) else sizeVisit useWhole data key rest
      else
        if decide (rc.hash = key.hash) then .ok (some ((l : Int) - (n : Int))) else .ok none

/-- `ReadOnly.Has` over a backing and an insertion index: an index miss is
reported as a plain `false`. -/
def roHasFn (ropts : ReadOptions) (data : Bytes) (ii : InsertionIndex) (key : Cid) :
    Except BsErr Bool :=
  let cands := candidates ii key
  if cands.isEmpty then .ok false
  else hasVisit ropts.blockstoreUseWholeCIDs data key cands

/-- The `ReadOnly.Get` method: an index miss or an unmatched candidate list is
`notFound`; on success the returned block carries the queried key as its CID
(`blocks.NewBlockWithCid(fnData, key)`). -/
def roGetFn (ropts : ReadOptions) (data : Bytes) (ii : InsertionIndex) (key : Cid) :
    Except BsErr Block :=
  let cands := candidates ii key
  if cands.isEmpty then .error .notFound
  else
    match getVisit ropts.blockstoreUseWholeCIDs data key cands with
    | .error e => .error e
    | .ok none => .error .notFound
    | .ok (some pl) => .ok ⟨key, pl⟩

/-- The `ReadOnly.GetSize` method. -/
def roGetSizeFn (ropts : ReadOptions) (data : Bytes) (ii : InsertionIndex) (key : Cid) :
    Except BsErr Int :=
  let cands := candidates ii key
  if cands.isEmpty then .error .notFound
  else
    match sizeVisit ropts.blockstoreUseWholeCIDs data key cands with
    | .error e => .error e
    | .ok none => .error .notFound
    | .ok (some s) => .ok s

/-- The multicodec code for "raw". -/
def rawCodec : Nat := 0x55

/-- Flattening of a CID to the raw codec over its multihash, as
`cid.NewCidV1(cid.Raw, c.Hash())` in `AllKeysChan`. -/
def rawProject (c : Cid) : Cid := ⟨rawCodec, c.hashAlgo, c.digest⟩

/-- The section scan of `ReadOnly.AllKeysChan` (fuel-driven): decode errors
and zero-length sections end the key stream silently. -/
def allKeysGo (useWhole : Bool) : Nat → Bytes → List Cid
  | 0, _ => []
  | fuel + 1, bs =>
    match varintDecode bs with
    | none => []
    | some (l, r1) =>
      if l = 0 then []
      else
        match cidFromBytes r1 with
        | none => []
        | some (c, _, _) =>
          let consumed := bs.length - r1.length + l
          (if useWhole then c else rawProject c) :: allKeysGo useWhole fuel (bs.drop consumed)

/-- The `ReadOnly.AllKeysChan` method, with the channel of keys embedded as
the produced list. -/
def roAllKeysFn (ropts : ReadOptions) (data : Bytes) : Except BsErr (List Cid) :=
  match readV1Header data with
  | none => .error .readFailed
  | some (h, _) =>
    .ok (allKeysGo ropts.blockstoreUseWholeCIDs (data.length + 1) (data.drop (carv1HeaderSize h)))

/-- The read-only CAR blockstore: a backing payload plus an index. -/
structure ReadOnly where
  data : Bytes
  idx : InsertionIndex
  ropts : ReadOptions
deriving DecidableEq

def ReadOnly.hasB (b : ReadOnly) (key : Cid) : Except BsErr Bool :=
  roHasFn b.ropts b.data b.idx key

def ReadOnly.getB (b : ReadOnly) (key : Cid) : Except BsErr Block :=
  roGetFn b.ropts b.data b.idx key

/-- ReadOnly.DeleteBlock: the Go code panics with "called write method on a
read-only blockstore"; the panic is embedded as the `writeOnReadOnly`
outcome, paired with the (unchanged) store. -/
def roDeleteBlock (b : ReadOnly) (_ : Cid) : ReadOnly × BsErr := (b, .writeOnReadOnly)

/-- ReadOnly.Put: panics in Go, embedded as the `writeOnReadOnly` outcome. -/
def roPut (b : ReadOnly) (_ : Block) : ReadOnly × BsErr := (b, .writeOnReadOnly)

/-- ReadOnly.PutMany: panics in Go, embedded as the `writeOnReadOnly`
outcome. -/
def roPutMany (b : ReadOnly) (_ : List Block) : ReadOnly × BsErr := (b, .writeOnReadOnly)

/-- Overwrite `bs` into `data` starting at byte `pos` (random-access file
write through `OffsetWriteSeeker`). -/
def writeAt (data : Bytes) (pos : Nat) (bs : Bytes) : Bytes :=
  data.take pos ++ bs ++ data.drop (pos + bs.length)

/-- The read-write CAR blockstore. `data` holds the bytes of the file from
the data offset onward; `posn` is the data writer's position relative to the
data offset (`dataWriter.Position()`), which is also the unit the index
offsets are recorded in. -/
structure ReadWrite where
  data : Bytes
  posn : Nat
  header : Header
  idx : InsertionIndex
  ropts : ReadOptions
  wopts : WriteOptions
deriving DecidableEq

/-- ReadWrite.finalized: the data size of the in-memory header is non-zero. -/
def ReadWrite.finalizedB (b : ReadWrite) : Bool := decide (b.header.dataSize ≠ 0)

/-- The deduplication test of `ReadWrite.PutMany`: with duplicate puts
disallowed, skip when (whole-CID mode and the index holds the exact CID) or
(multihash mode and an index lookup succeeds). -/
def skipB (b : ReadWrite) (c : Cid) : Bool :=
  !b.wopts.blockstoreAllowDuplicatePuts &&
    ((b.ropts.blockstoreUseWholeCIDs && hasExactCID b.idx c) ||
     (!b.ropts.blockstoreUseWholeCIDs && (iiGet b.idx c).isSome))

/-- The loop body of `ReadWrite.PutMany`, with an explicit failure oracle for
the section write: when `failAt` names the current block position, the write
fails after emitting `junk` bytes (the prefix the failed write got out) and
the loop returns the error without touching the index. -/
def putManyGo (failAt : Option Nat) (junk : Bytes) :
    List Block → Nat → ReadWrite → ReadWrite × Option BsErr
  | [], _, b => (b, none)
  | bl :: t, i, b =>
    let c := bl.cid
    if skipB b c then putManyGo failAt junk t (i + 1) b
    else
      let n := b.posn
      if failAt = some i then
        ({ b with data := writeAt b.data n junk, posn := n + junk.length }, some .writeFailed)
      else
        let sec := sectionBytes c bl.rawData
        putManyGo failAt junk t (i + 1)
          { b with data := writeAt b.data n sec, posn := n + sec.length,
                   idx := insertNoReplace b.idx c n }

/-- ReadWrite.PutMany (no write failures). -/
def rwPutMany (b : ReadWrite) (blks : List Block) : ReadWrite × Option BsErr :=
  if b.finalizedB then (b, some .finalized) else putManyGo none [] blks 0 b

/-- ReadWrite.PutMany with the failure oracle. -/
def rwPutManyF (failAt : Option Nat) (junk : Bytes) (b : ReadWrite) (blks : List Block) :
    ReadWrite × Option BsErr :=
  if b.finalizedB then (b, some .finalized) else putManyGo failAt junk blks 0 b

/-- ReadWrite.Put delegates to PutMany. -/
def rwPut (b : ReadWrite) (bl : Block) : ReadWrite × Option BsErr := rwPutMany b [bl]

def rwHas (b : ReadWrite) (key : Cid) : Except BsErr Bool :=
  if b.finalizedB then .error .finalized else roHasFn b.ropts b.data b.idx key

def rwGet (b : ReadWrite) (key : Cid) : Except BsErr Block :=
  if b.finalizedB then .error .finalized else roGetFn b.ropts b.data b.idx key

def rwGetSize (b : ReadWrite) (key : Cid) : Except BsErr Int :=
  if b.finalizedB then .error .finalized else roGetSizeFn b.ropts b.data b.idx key

def rwAllKeys (b : ReadWrite) : Except BsErr (List Cid) :=
  if b.finalizedB then .error .finalized else roAllKeysFn b.ropts b.data

/-- Lexicographic strict order on byte strings. -/
def bytesLtB : Bytes → Bytes → Bool
  | [], [] => false
  | [], _ :: _ => true
  | _ :: _, [] => false
  | a :: as, b :: bs2 => if a < b then true else if b < a then false else bytesLtB as bs2

/-- Stable insertion into a multihash-sorted record list. -/
def sortIns (e : Cid × Nat) : InsertionIndex → InsertionIndex
  | [] => [e]
  | x :: t => if bytesLtB e.1.hash x.1.hash then e :: x :: t else x :: sortIns e t

/-- Modelled from the spec: `insertionIndex.flatten` stable-sorts the records
by multihash into the persistable index form. -/
def flatten (ii : InsertionIndex) : InsertionIndex :=
  List.foldl (fun acc e => sortIns e acc) [] ii

/-- An effect `Finalize` performs on the underlying file, in program order. -/
inductive FsWrite where
  | writeIdx (offset : Nat) (entries : InsertionIndex)
  | writeHdr (offset : Nat) (h : Header)
deriving DecidableEq

/-- ReadWrite.Finalize: fails if the data size was already set; otherwise
records the data size, and emits the file effects in program order — the
flattened index at the index offset first, the v2 header (at the pragma-size
offset) last. -/
def rwFinalize (b : ReadWrite) : Except BsErr (List FsWrite × ReadWrite) :=
  if b.header.dataSize ≠ 0 then .error .finalizedTwice
  else
    let h := withDataSize b.header b.posn
    .ok ([.writeIdx h.indexOffset (flatten b.idx), .writeHdr pragmaSize h],
      { b with header := h })

/-- The CAR file on disk, structured: the version its pragma decodes to, the
content of the v2 header region (all zero when unfinalized), the physical
offset of the data region, the data region bytes, and the sorted-index
region content when one has been written. -/
structure CarFile where
  version : Nat
  hdr : Header
  dataOff : Nat
  data : Bytes
  tail : Option InsertionIndex
deriving DecidableEq

/-- Apply one finalize effect to the file. -/
def applyFs (f : CarFile) : FsWrite → CarFile
  | .writeIdx _ fi => { f with tail := some fi }
  | .writeHdr _ h => { f with hdr := h }

def applyAll (f : CarFile) (ws : List FsWrite) : CarFile := List.foldl applyFs f ws

/-- The file a write session leaves behind before any finalize: pragma of
version 2, a zeroed v2 header region, and the data region as written. -/
def sessionFile (b : ReadWrite) : CarFile :=
  ⟨2, ⟨0, 0, 0⟩, b.header.dataOffset, b.data, none⟩

/-- The re-indexing scan of `ReadWrite.resumeWithRoots` (fuel-driven): walk
the sections after the v1 header, recording each CID at its section start;
plain end of input ends the scan, a zero-length section is an error unless
`ZeroLengthSectionAsEOF` is set, and decode failures are fatal. Returns the
rebuilt index and the offset where the writer resumes. -/
def scanGo (zeroEOF : Bool) : Nat → Bytes → Nat → InsertionIndex →
    Except BsErr (InsertionIndex × Nat)
  | 0, _, off, acc => .ok (acc, off)
  | fuel + 1, bs, off, acc =>
    if bs = [] then .ok (acc, off)
    else
      match varintDecode bs with
      | none => .error .truncated
      | some (l, r1) =>
        if l = 0 then
          if zeroEOF then .ok (acc, off) else .error .zeroLenSection
        else
          match cidFromBytes r1 with
          | none => .error .badCid
          | some (c, _, _) =>
            let consumed := bs.length - r1.length + l
            scanGo zeroEOF fuel (bs.drop consumed) (off + consumed) (insertNoReplace acc c off)

/-- ReadWrite.resumeWithRoots. In the model reading the v2 header region of a
structured file always succeeds with its `hdr`; after the checks the file
header region is zeroed (`unfinalize`), which `sessionFile` reflects. Region
reads below the file's own data offset are not representable; every
reachable case here reads at the configured offset or fails first. -/
def resumeWithRoots (f : CarFile) (roots : List Cid) (cfg : Header) (ropts : ReadOptions)
    (wopts : WriteOptions) : Except BsErr ReadWrite :=
  if f.version ≠ 2 then .error (.resumeOnVersion f.version)
  else
    let step : Except BsErr Bytes :=
      if f.hdr.dataOffset ≠ 0 then
        if f.hdr.dataOffset ≠ cfg.dataOffset then
          .error (.paddingMismatch (sub64 f.hdr.dataOffset (pragmaSize + v2HeaderSize))
            (sub64 cfg.dataOffset (pragmaSize + v2HeaderSize)))
        else if f.hdr.dataSize ≠ 0 then .ok (f.data.take f.hdr.dataSize)
        else .error .corruptHeader
      else .ok (f.data.drop (cfg.dataOffset - f.dataOff))
    match step with
    | .error e => .error e
    | .ok d =>
      match readV1Header d with
      | none => .error .readFailed
      | some (h, _) =>
        if h = { roots := roots, version := 1 } then
          let hsz := carv1HeaderSize h
          match scanGo ropts.zeroLengthSectionAsEOF (d.length + 1) (d.drop hsz) hsz [] with
          | .error e => .error e
          | .ok (ii, off) =>
            .ok { data := d, posn := off, header := cfg, idx := ii,
                  ropts := ropts, wopts := wopts }
        else .error .headerMismatch

/-- The store produced for a fresh (empty) file: pragma written, v1 data
header written at the data offset, cursor past it. -/
def initStore (roots : List Cid) (cfg : Header) (ropts : ReadOptions) (wopts : WriteOptions) :
    ReadWrite :=
  let hb := v1HeaderBytes roots 1
  { data := hb, posn := hb.length, header := cfg, idx := [], ropts := ropts, wopts := wopts }

/-- OpenReadWrite: `none` stands for an absent or empty file (fresh init);
`some f` resumes from the existing file `f`. -/
def openReadWrite (file : Option CarFile) (roots : List Cid) (ropts : ReadOptions)
    (wopts : WriteOptions) : Except BsErr ReadWrite :=
  let cfg := mkHeader wopts.dataPadding wopts.indexPadding
  match file with
  | none => .ok (initStore roots cfg ropts wopts)
  | some f => resumeWithRoots f roots cfg ropts wopts

instance {ε α : Type} [DecidableEq ε] [DecidableEq α] : DecidableEq (Except ε α)
  | .error a, .error b =>
    if h : a = b then isTrue (by rw [h]) else isFalse (fun hh => by cases hh; exact h rfl)
  | .error _, .ok _ => isFalse (fun hh => by cases hh)
  | .ok _, .error _ => isFalse (fun hh => by cases hh)
  | .ok a, .ok b =>
    if h : a = b then isTrue (by rw [h]) else isFalse (fun hh => by cases hh; exact h rfl)

/-! Derived views of the data region: a store reached by fresh creation and
puts holds the v1 header followed by the written sections, and its index
records each section's start offset. -/

/-- Concatenated section bytes of a list of (CID, payload) entries. -/
def sections : List (Cid × Bytes) → Bytes
  | [] => []
  | (c, p) :: t => sectionBytes c p ++ sections t

/-- The index records for `elts` laid out contiguously from `base`. -/
def idxOf (base : Nat) : List (Cid × Bytes) → InsertionIndex
  | [] => []
  | (c, p) :: t => (c, base) :: idxOf (base + (sectionBytes c p).length) t

/-- The entries of `elts` with their start offsets from `base`. -/
def entriesWithOff (base : Nat) : List (Cid × Bytes) → List (Cid × Nat × Bytes)
  | [] => []
  | (c, p) :: t => (c, base, p) :: entriesWithOff (base + (sectionBytes c p).length) t

theorem sections_append (l1 l2 : List (Cid × Bytes)) :
    sections (l1 ++ l2) = sections l1 ++ sections l2 := by
  induction l1 with
  | nil => simp [sections]
  | cons e t ih => obtain ⟨c, p⟩ := e; simp [sections, ih]

theorem idxOf_eq_map (base : Nat) (elts : List (Cid × Bytes)) :
    idxOf base elts = (entriesWithOff base elts).map (fun e => (e.1, e.2.1)) := by
  induction elts generalizing base with
  | nil => simp [idxOf, entriesWithOff]
  | cons e t ih => obtain ⟨c, p⟩ := e; simp [idxOf, entriesWithOff, ih]

theorem entriesWithOff_append (base : Nat) (l1 l2 : List (Cid × Bytes)) :
    entriesWithOff base (l1 ++ l2) =
      entriesWithOff base l1 ++ entriesWithOff (base + (sections l1).length) l2 := by
  induction l1 generalizing base with
  | nil => simp [entriesWithOff, sections]
  | cons e t ih =>
    obtain ⟨c, p⟩ := e
    simp only [List.cons_append, entriesWithOff, sections, List.length_append, List.append_eq,
      ih, Nat.add_assoc]

theorem entriesWithOff_mem (base : Nat) (elts : List (Cid × Bytes)) :
    ∀ e ∈ entriesWithOff base elts, (e.1, e.2.2) ∈ elts := by
  induction elts generalizing base with
  | nil => simp [entriesWithOff]
  | cons hd t ih =>
    obtain ⟨c, p⟩ := hd
    intro e he
    simp only [entriesWithOff, List.mem_cons] at he
    rcases he with h | h
    · subst h; simp
    · exact List.mem_cons_of_mem _ (ih _ _ h)

/-- A section for `(c, p)` sits intact in `data` at offset `off`. -/
def entryReadable (data : Bytes) (c : Cid) (off : Nat) (p : Bytes) : Prop :=
  ∃ suf, List.drop off data = sectionBytes c p ++ suf

theorem readable_of_layout (elts : List (Cid × Bytes)) :
    ∀ (base : Nat) (pre rest : Bytes), pre.length = base →
      ∀ e ∈ entriesWithOff base elts,
        entryReadable (pre ++ (sections elts ++ rest)) e.1 e.2.1 e.2.2 := by
  induction elts with
  | nil => simp [entriesWithOff]
  | cons hd t ih =>
    obtain ⟨c, p⟩ := hd
    intro base pre rest hlen e he
    simp only [entriesWithOff, List.mem_cons] at he
    rcases he with h | h
    · subst h
      refine ⟨sections t ++ rest, ?_⟩
      simp only [sections, List.append_assoc]
      rw [← hlen, List.drop_left]
    · have := ih (base + (sectionBytes c p).length) (pre ++ sectionBytes c p) rest
        (by simp [hlen]) e h
      simpa only [sections, List.append_assoc] using this

theorem readNode_of_readable {data : Bytes} {c : Cid} {off : Nat} {p : Bytes}
    (h : entryReadable data c off p) : readNode (List.drop off data) = some (c, p) := by
  obtain ⟨suf, hs⟩ := h
  rw [hs, readNode_section]

theorem readSecHead_section (c : Cid) (p rest : Bytes) :
    readSecHead (sectionBytes c p ++ rest) = some c := by
  simp only [sectionBytes, List.append_assoc, readSecHead, varintDecode_encode,
    cidFromBytes_encode]

theorem readSecHead_of_readable {data : Bytes} {c : Cid} {off : Nat} {p : Bytes}
    (h : entryReadable data c off p) : readSecHead (List.drop off data) = some c := by
  obtain ⟨suf, hs⟩ := h
  rw [hs, readSecHead_section]

theorem filter_map_swap {α β : Type} (f : α → β) (p : β → Bool) (l : List α) :
    List.filter p (List.map f l) = List.map f (List.filter (fun a => p (f a)) l) := by
  induction l with
  | nil => rfl
  | cons a t ih =>
    simp only [List.map_cons, List.filter_cons]
    cases h : p (f a) <;> simp [h, ih]

theorem candidates_idxOf (base : Nat) (elts : List (Cid × Bytes)) (k : Cid) :
    candidates (idxOf base elts) k =
      (List.filter (fun e => decide (e.1.hash = k.hash)) (entriesWithOff base elts)).map
        (fun e => e.2.1) := by
  rw [candidates, idxOf_eq_map, filter_map_swap, List.map_map]
  rfl

theorem candidates_append (i1 i2 : InsertionIndex) (k : Cid) :
    candidates (i1 ++ i2) k = candidates i1 k ++ candidates i2 k := by
  simp [candidates]

theorem candidates_nil_of_fresh {ii : InsertionIndex} {k : Cid}
    (h : ∀ e ∈ ii, e.1.hash ≠ k.hash) : candidates ii k = [] := by
  simp only [candidates, List.map_eq_nil_iff, List.filter_eq_nil_iff]
  intro e he
  simpa using h e he

/-! Roundtrips of the framed v1 data header, and the resumption scan over a
well-formed section stream. -/

theorem ldRead_framed (bs rest : Bytes) :
    ldRead (varintEncode bs.length ++ (bs ++ rest)) = some (bs, rest) := by
  have h : bs.length ≤ (bs ++ rest).length := by simp
  simp only [ldRead, varintDecode_encode, if_pos h, List.take_left, List.drop_left]

theorem readRootsGo_enc (roots : List Cid) (rest : Bytes) :
    readRootsGo roots.length (rootsEnc roots ++ rest) = some (roots, rest) := by
  induction roots with
  | nil => simp [readRootsGo, rootsEnc]
  | cons c t ih =>
    simp only [rootsEnc, List.length_cons, readRootsGo, List.append_assoc,
      cidFromBytes_encode, ih]

theorem readRootsGo_enc_nil (roots : List Cid) :
    readRootsGo roots.length (rootsEnc roots) = some (roots, []) := by
  have h := readRootsGo_enc roots []
  simpa using h

theorem readV1Header_encode (roots : List Cid) (rest : Bytes) :
    readV1Header (v1HeaderBytes roots 1 ++ rest) = some (⟨roots, 1⟩, rest) := by
  have hassoc : v1HeaderBytes roots 1 ++ rest =
      varintEncode (varintEncode 1 ++ varintEncode roots.length ++ rootsEnc roots).length ++
        ((varintEncode 1 ++ varintEncode roots.length ++ rootsEnc roots) ++ rest) := by
    simp [v1HeaderBytes, List.append_assoc]
  rw [hassoc]
  simp only [readV1Header, ldRead_framed]
  simp only [List.append_assoc, varintDecode_encode, readRootsGo_enc_nil]

theorem v1HeaderBytes_ne_nil (roots : List Cid) (v : Nat) : v1HeaderBytes roots v ≠ [] := by
  simp only [v1HeaderBytes]
  intro h
  exact varintEncode_ne_nil _ (List.append_eq_nil.mp h).1

theorem scanGo_sections (z : Bool) (elts : List (Cid × Bytes)) :
    ∀ (off : Nat) (acc : InsertionIndex) (fuel : Nat), (sections elts).length < fuel →
      scanGo z fuel (sections elts) off acc =
        .ok (acc ++ idxOf off elts, off + (sections elts).length) := by
  induction elts with
  | nil =>
    intro off acc fuel hf
    match fuel, hf with
    | fuel + 1, _ => simp [scanGo, sections, idxOf]
  | cons hd t ih =>
    obtain ⟨c, p⟩ := hd
    intro off acc fuel hf
    have hcb : 0 < c.bytes.length := List.length_pos.mpr (cidBytes_ne_nil c)
    have hsec : (sectionBytes c p).length =
        (varintEncode (c.bytes.length + p.length)).length + c.bytes.length + p.length :=
      sectionBytes_length c p
    have hvne : 0 < (varintEncode (c.bytes.length + p.length)).length :=
      List.length_pos.mpr (varintEncode_ne_nil _)
    match fuel, hf with
    | fuel + 1, hf =>
      have hexp : sections ((c, p) :: t) =
          varintEncode (c.bytes.length + p.length) ++ (c.bytes ++ (p ++ sections t)) := by
        simp [sections, sectionBytes, List.append_assoc]
      have hne : sections ((c, p) :: t) ≠ [] := by
        rw [hexp]
        intro h
        exact varintEncode_ne_nil _ (List.append_eq_nil.mp h).1
      have hL : ¬ (c.bytes.length + p.length = 0) := by omega
      simp only [scanGo, if_neg hne, hexp, varintDecode_encode, cidFromBytes_encode, if_neg hL]
      have hcons : (varintEncode (c.bytes.length + p.length) ++
            (c.bytes ++ (p ++ sections t))).length - (c.bytes ++ (p ++ sections t)).length +
            (c.bytes.length + p.length) = (sectionBytes c p).length := by
        simp only [List.length_append]
        omega
      rw [hcons]
      have hdropped : (varintEncode (c.bytes.length + p.length) ++
          (c.bytes ++ (p ++ sections t))).drop (sectionBytes c p).length = sections t := by
        have heq : varintEncode (c.bytes.length + p.length) ++ (c.bytes ++ (p ++ sections t)) =
            sectionBytes c p ++ sections t := by
          simp [sectionBytes, List.append_assoc]
        rw [heq, List.drop_left]
      rw [hdropped]
      have hft : (sections t).length < fuel := by
        have : (sections ((c, p) :: t)).length =
            (sectionBytes c p).length + (sections t).length := by
          simp [sections]
        omega
      rw [ih (off + (sectionBytes c p).length) (insertNoReplace acc c off) fuel hft]
      have h1 : insertNoReplace acc c off ++ idxOf (off + (sectionBytes c p).length) t =
          acc ++ idxOf off ((c, p) :: t) := by
        simp [insertNoReplace, idxOf, List.append_assoc]
      have h2 : off + (sectionBytes c p).length + (sections t).length =
          off + (sections ((c, p) :: t)).length := by
        simp only [sections, List.length_append]
        omega
      rw [h1, h2, ← hexp, if_neg hne]

/-! The Shape invariant: every store reachable by a fresh open followed by
puts consists of the v1 header followed by the written sections, with the
index recording exactly the section start offsets, the cursor at the end of
the data, and the in-memory header still unfinalized. -/

theorem writeAt_append (data bs : Bytes) : writeAt data data.length bs = data ++ bs := by
  have hd : List.drop (data.length + bs.length) data = [] :=
    List.drop_eq_nil_of_le (by omega)
  simp [writeAt, hd]

def Shape (s : ReadWrite) (roots : List Cid) (elts : List (Cid × Bytes)) : Prop :=
  s.data = v1HeaderBytes roots 1 ++ sections elts ∧
  s.idx = idxOf (v1HeaderBytes roots 1).length elts ∧
  s.posn = s.data.length ∧
  s.header.dataSize = 0

instance (s : ReadWrite) (roots : List Cid) (elts : List (Cid × Bytes)) :
    Decidable (Shape s roots elts) := by
  unfold Shape
  infer_instance

theorem openReadWrite_none (roots : List Cid) (ropts : ReadOptions) (wopts : WriteOptions) :
    openReadWrite none roots ropts wopts =
      .ok (initStore roots (mkHeader wopts.dataPadding wopts.indexPadding) ropts wopts) := rfl

theorem initStore_shape (roots : List Cid) (dp ip : Nat) (ropts : ReadOptions)
    (wopts : WriteOptions) : Shape (initStore roots (mkHeader dp ip) ropts wopts) roots [] := by
  refine ⟨?_, ?_, ?_, ?_⟩ <;> simp [initStore, Shape, sections, idxOf, mkHeader]

theorem hasExactCID_eq_true {ii : InsertionIndex} {c : Cid} :
    hasExactCID ii c = true ↔ ∃ e ∈ ii, e.1 = c := by
  simp [hasExactCID, List.any_eq_true]

theorem iiGet_isSome {ii : InsertionIndex} {c : Cid} :
    (iiGet ii c).isSome = true ↔ ∃ e ∈ ii, e.1.hash = c.hash := by
  rw [iiGet, Option.isSome_map']
  rw [List.find?_isSome]
  simp

theorem idxOf_mem_cid {base : Nat} {elts : List (Cid × Bytes)} {e : Cid × Nat}
    (h : e ∈ idxOf base elts) : ∃ p, (e.1, p) ∈ elts := by
  rw [idxOf_eq_map] at h
  obtain ⟨t, ht, hte⟩ := List.mem_map.mp h
  refine ⟨t.2.2, ?_⟩
  have := entriesWithOff_mem base elts t ht
  rw [← hte]
  exact this

theorem skipB_false_of_fresh {s : ReadWrite} {c : Cid}
    (hfresh : ∀ e ∈ s.idx, e.1.hash ≠ c.hash) : skipB s c = false := by
  have h1 : hasExactCID s.idx c = false := by
    rw [Bool.eq_false_iff]
    intro htrue
    obtain ⟨e, he, hec⟩ := hasExactCID_eq_true.mp htrue
    exact hfresh e he (by rw [hec])
  have h2 : (iiGet s.idx c).isSome = false := by
    rw [Bool.eq_false_iff]
    intro htrue
    obtain ⟨e, he, hec⟩ := iiGet_isSome.mp htrue
    exact hfresh e he hec
  simp [skipB, h1, h2]

/-- The store after `PutMany` writes the section of one block. -/
def writtenStore (s : ReadWrite) (bl : Block) : ReadWrite :=
  { s with data := writeAt s.data s.posn (sectionBytes bl.cid bl.rawData),
           posn := s.posn + (sectionBytes bl.cid bl.rawData).length,
           idx := insertNoReplace s.idx bl.cid s.posn }

theorem putManyGo_write {b : ReadWrite} {bl : Block} (hskip : skipB b bl.cid = false)
    {failAt : Option Nat} {junk : Bytes} {t : List Block} {i : Nat} (hfail : failAt ≠ some i) :
    putManyGo failAt junk (bl :: t) i b = putManyGo failAt junk t (i + 1) (writtenStore b bl) := by
  simp [putManyGo, hskip, if_neg hfail, writtenStore]

theorem putManyGo_skip {b : ReadWrite} {bl : Block} (hskip : skipB b bl.cid = true)
    {failAt : Option Nat} {junk : Bytes} {t : List Block} {i : Nat} :
    putManyGo failAt junk (bl :: t) i b = putManyGo failAt junk t (i + 1) b := by
  simp [putManyGo, hskip]

theorem putManyGo_fail {b : ReadWrite} {bl : Block} (hskip : skipB b bl.cid = false)
    {junk : Bytes} {t : List Block} {i : Nat} :
    putManyGo (some i) junk (bl :: t) i b =
      ({ b with data := writeAt b.data b.posn junk, posn := b.posn + junk.length },
        some .writeFailed) := by
  simp [putManyGo, hskip]

theorem idxOf_append (base : Nat) (l1 l2 : List (Cid × Bytes)) :
    idxOf base (l1 ++ l2) = idxOf base l1 ++ idxOf (base + (sections l1).length) l2 := by
  simp [idxOf_eq_map, entriesWithOff_append, List.map_append]

theorem shape_write {s : ReadWrite} {roots : List Cid} {elts : List (Cid × Bytes)}
    (hs : Shape s roots elts) (bl : Block) :
    Shape (writtenStore s bl) roots (elts ++ [(bl.cid, bl.rawData)]) := by
  obtain ⟨hd, hi, hp, hz⟩ := hs
  have hdata : (writtenStore s bl).data = s.data ++ sectionBytes bl.cid bl.rawData := by
    simp only [writtenStore]
    rw [hp, writeAt_append]
  refine ⟨?_, ?_, ?_, ?_⟩
  · rw [hdata, hd, sections_append, List.append_assoc]
    simp [sections]
  · simp only [writtenStore, insertNoReplace]
    rw [hi, idxOf_append, hp, hd]
    simp [idxOf, List.length_append]
  · simp only [writtenStore] at hdata ⊢
    rw [hdata, hp]
    simp
  · simpa [writtenStore] using hz

/-- Iterated `ReadWrite.Put`. -/
def putList (s : ReadWrite) : List Block → ReadWrite
  | [] => s
  | bl :: t => putList (rwPut s bl).1 t

/-- Every put of the sequence returned without error. -/
def putAllOk (s : ReadWrite) : List Block → Prop
  | [] => True
  | bl :: t => (rwPut s bl).2 = none ∧ putAllOk (rwPut s bl).1 t

theorem rwPut_write {s : ReadWrite} {bl : Block} (hz : s.header.dataSize = 0)
    (hskip : skipB s bl.cid = false) : rwPut s bl = (writtenStore s bl, none) := by
  rw [rwPut, rwPutMany]
  have hfin : s.finalizedB = false := by simp [ReadWrite.finalizedB, hz]
  rw [hfin]
  simp only [Bool.false_eq_true, if_false]
  rw [putManyGo_write hskip (by simp)]
  rfl

theorem rwPut_skip {s : ReadWrite} {bl : Block} (hz : s.header.dataSize = 0)
    (hskip : skipB s bl.cid = true) : rwPut s bl = (s, none) := by
  rw [rwPut, rwPutMany]
  have hfin : s.finalizedB = false := by simp [ReadWrite.finalizedB, hz]
  rw [hfin]
  simp only [Bool.false_eq_true, if_false]
  rw [putManyGo_skip hskip]
  rfl

theorem putList_shape_fresh {roots : List Cid} :
    ∀ (blks : List Block) (s : ReadWrite) (elts : List (Cid × Bytes)),
      Shape s roots elts →
      (∀ b ∈ blks, ∀ cp ∈ elts, cp.1.hash ≠ b.cid.hash) →
      List.Pairwise (fun a b => a.cid.hash ≠ b.cid.hash) blks →
      Shape (putList s blks) roots (elts ++ blks.map (fun b => (b.cid, b.rawData))) ∧
        putAllOk s blks := by
  intro blks
  induction blks with
  | nil =>
    intro s elts hs _ _
    simpa [putList, putAllOk] using hs
  | cons bl t ih =>
    intro s elts hs hfresh hpw
    have hfreshIdx : ∀ e ∈ s.idx, e.1.hash ≠ bl.cid.hash := by
      intro e he
      obtain ⟨p, hp⟩ := idxOf_mem_cid (hs.2.1 ▸ he)
      exact hfresh bl (by simp) (e.1, p) hp
    have hskip := skipB_false_of_fresh hfreshIdx
    have hput := rwPut_write hs.2.2.2 hskip
    have hs' := shape_write hs bl
    have hfresh' : ∀ b ∈ t, ∀ cp ∈ elts ++ [(bl.cid, bl.rawData)], cp.1.hash ≠ b.cid.hash := by
      intro b hb cp hcp
      rcases List.mem_append.mp hcp with h | h
      · exact hfresh b (List.mem_cons_of_mem _ hb) cp h
      · have : cp = (bl.cid, bl.rawData) := by simpa using h
        rw [this]
        exact (List.pairwise_cons.mp hpw).1 b hb
    have := ih (writtenStore s bl) (elts ++ [(bl.cid, bl.rawData)]) hs' hfresh'
      (List.pairwise_cons.mp hpw).2
    constructor
    · have heq : (elts ++ [(bl.cid, bl.rawData)]) ++ t.map (fun b => (b.cid, b.rawData)) =
          elts ++ (bl :: t).map (fun b => (b.cid, b.rawData)) := by
        simp
      rw [putList, hput]
      rw [← heq]
      exact this.1
    · show (rwPut s bl).2 = none ∧ putAllOk (rwPut s bl).1 t
      rw [hput]
      exact ⟨rfl, this.2⟩

/-! Retrieval lemmas: what `Has` and `Get` answer on a store whose sections
are laid out by `Shape` (possibly followed by trailing garbage `rest`). -/

/-- All entries of the triple list are intact sections of `data`. -/
def TriplesReadable (data : Bytes) (L : List (Cid × Nat × Bytes)) : Prop :=
  ∀ t ∈ L, entryReadable data t.1 t.2.1 t.2.2

theorem hasVisit_whole_found {data : Bytes} {k : Cid} :
    ∀ L : List (Cid × Nat × Bytes), TriplesReadable data L → (∃ t ∈ L, t.1 = k) →
      hasVisit true data k (L.map (fun t => t.2.1)) = .ok true := by
  intro L
  induction L with
  | nil => intro _ h; simp at h
  | cons t0 T ih =>
    intro hr hex
    simp only [List.map_cons, hasVisit]
    rw [readSecHead_of_readable (hr t0 (by simp))]
    by_cases h0 : t0.1 = k
    · simp [h0]
    · simp only [h0, if_neg, if_false]
      apply ih (fun t ht => hr t (List.mem_cons_of_mem _ ht))
      obtain ⟨t, ht, htk⟩ := hex
      rcases List.mem_cons.mp ht with h | h
      · exact absurd (h ▸ htk) h0
      · exact ⟨t, h, htk⟩

theorem getVisit_whole_found {data : Bytes} {k : Cid} :
    ∀ L : List (Cid × Nat × Bytes), TriplesReadable data L → (∃ t ∈ L, t.1 = k) →
      ∃ p, getVisit true data k (L.map (fun t => t.2.1)) = .ok (some p) := by
  intro L
  induction L with
  | nil => intro _ h; simp at h
  | cons t0 T ih =>
    intro hr hex
    simp only [List.map_cons, getVisit]
    rw [readNode_of_readable (hr t0 (by simp))]
    by_cases h0 : t0.1 = k
    · exact ⟨t0.2.2, by simp [h0]⟩
    · simp only [h0, if_neg, if_false]
      apply ih (fun t ht => hr t (List.mem_cons_of_mem _ ht))
      obtain ⟨t, ht, htk⟩ := hex
      rcases List.mem_cons.mp ht with h | h
      · exact absurd (h ▸ htk) h0
      · exact ⟨t, h, htk⟩

theorem hasVisit_mh_head {data : Bytes} {k : Cid} {t0 : Cid × Nat × Bytes}
    {T : List (Cid × Nat × Bytes)} (hr : entryReadable data t0.1 t0.2.1 t0.2.2)
    (hh : t0.1.hash = k.hash) :
    hasVisit false data k ((t0 :: T).map (fun t => t.2.1)) = .ok true := by
  simp only [List.map_cons, hasVisit]
  rw [readSecHead_of_readable hr]
  simp [hh]

theorem getVisit_mh_head {data : Bytes} {k : Cid} {t0 : Cid × Nat × Bytes}
    {T : List (Cid × Nat × Bytes)} (hr : entryReadable data t0.1 t0.2.1 t0.2.2)
    (hh : t0.1.hash = k.hash) :
    getVisit false data k ((t0 :: T).map (fun t => t.2.1)) = .ok (some t0.2.2) := by
  simp only [List.map_cons, getVisit]
  rw [readNode_of_readable hr]
  simp [hh]

theorem mem_elts_triple {c : Cid} {p : Bytes} :
    ∀ (elts : List (Cid × Bytes)) (base : Nat), (c, p) ∈ elts →
      ∃ off, (c, off, p) ∈ entriesWithOff base elts := by
  intro elts
  induction elts with
  | nil => intro base h; simp at h
  | cons hd t ih =>
    obtain ⟨c0, p0⟩ := hd
    intro base h
    rcases List.mem_cons.mp h with h | h
    · obtain ⟨h1, h2⟩ := Prod.mk.injEq .. ▸ h
      refine ⟨base, ?_⟩
      simp [entriesWithOff, ← h1, ← h2]
    · obtain ⟨off, hoff⟩ := ih (base + (sectionBytes c0 p0).length) h
      exact ⟨off, by simp [entriesWithOff, hoff]⟩

/-- Coverage of a key by the written entries, under the configured matching
policy: whole-CID equality when `u`, multihash equality otherwise. -/
def coveredBy (u : Bool) (elts : List (Cid × Bytes)) (k : Cid) : Prop :=
  ∃ cp ∈ elts, (if u then cp.1 = k else cp.1.hash = k.hash)

theorem roHas_of_covered {ropts : ReadOptions} {pre rest : Bytes} {elts : List (Cid × Bytes)}
    {base : Nat} {k : Cid} (hbase : pre.length = base)
    (hcov : coveredBy ropts.blockstoreUseWholeCIDs elts k) :
    roHasFn ropts (pre ++ (sections elts ++ rest)) (idxOf base elts) k = .ok true := by
  obtain ⟨cp, hcp, hcpk⟩ := hcov
  obtain ⟨c0, p0⟩ := cp
  obtain ⟨off, hoff⟩ := mem_elts_triple elts base hcp
  set data := pre ++ (sections elts ++ rest) with hdata
  have hhash : c0.hash = k.hash := by
    cases hu : ropts.blockstoreUseWholeCIDs <;> rw [hu] at hcpk <;> simp at hcpk
    · exact hcpk
    · rw [hcpk]
  have hmemF : (c0, off, p0) ∈
      List.filter (fun e => decide (e.1.hash = k.hash)) (entriesWithOff base elts) :=
    List.mem_filter.mpr ⟨hoff, by simpa using hhash⟩
  have hreadF : TriplesReadable data
      (List.filter (fun e => decide (e.1.hash = k.hash)) (entriesWithOff base elts)) := by
    intro t ht
    exact readable_of_layout elts base pre rest hbase t (List.mem_of_mem_filter ht)
  have hcands := candidates_idxOf base elts k
  have hne : candidates (idxOf base elts) k ≠ [] := by
    rw [hcands]
    intro h
    rw [List.map_eq_nil_iff] at h
    rw [h] at hmemF
    simp at hmemF
  rw [roHasFn]
  simp only [List.isEmpty_iff, hne, if_neg, if_false]
  rw [hcands]
  cases hu : ropts.blockstoreUseWholeCIDs
  · rw [hu] at hcpk
    simp only [if_false] at hcpk
    cases hF : List.filter (fun e => decide (e.1.hash = k.hash)) (entriesWithOff base elts) with
    | nil => rw [hF] at hmemF; simp at hmemF
    | cons t0 T =>
      rw [hF] at hreadF
      have ht0 : decide (t0.1.hash = k.hash) = true := by
        have : t0 ∈ t0 :: T := by simp
        rw [← hF] at this
        exact (List.mem_filter.mp this).2
      exact hasVisit_mh_head (hreadF t0 (by simp)) (by simpa using ht0)
  · rw [hu] at hcpk
    simp only [if_pos] at hcpk
    apply hasVisit_whole_found _ hreadF
    exact ⟨(c0, off, p0), hmemF, hcpk⟩

theorem roGet_of_covered {ropts : ReadOptions} {pre rest : Bytes} {elts : List (Cid × Bytes)}
    {base : Nat} {k : Cid} (hbase : pre.length = base)
    (hcov : coveredBy ropts.blockstoreUseWholeCIDs elts k) :
    ∃ p, roGetFn ropts (pre ++ (sections elts ++ rest)) (idxOf base elts) k = .ok ⟨k, p⟩ := by
  obtain ⟨cp, hcp, hcpk⟩ := hcov
  obtain ⟨c0, p0⟩ := cp
  obtain ⟨off, hoff⟩ := mem_elts_triple elts base hcp
  set data := pre ++ (sections elts ++ rest) with hdata
  have hhash : c0.hash = k.hash := by
    cases hu : ropts.blockstoreUseWholeCIDs <;> rw [hu] at hcpk <;> simp at hcpk
    · exact hcpk
    · rw [hcpk]
  have hmemF : (c0, off, p0) ∈
      List.filter (fun e => decide (e.1.hash = k.hash)) (entriesWithOff base elts) :=
    List.mem_filter.mpr ⟨hoff, by simpa using hhash⟩
  have hreadF : TriplesReadable data
      (List.filter (fun e => decide (e.1.hash = k.hash)) (entriesWithOff base elts)) := by
    intro t ht
    exact readable_of_layout elts base pre rest hbase t (List.mem_of_mem_filter ht)
  have hcands := candidates_idxOf base elts k
  have hne : candidates (idxOf base elts) k ≠ [] := by
    rw [hcands]
    intro h
    rw [List.map_eq_nil_iff] at h
    rw [h] at hmemF
    simp at hmemF
  rw [roGetFn]
  simp only [List.isEmpty_iff, hne, if_neg, if_false]
  rw [hcands]
  cases hu : ropts.blockstoreUseWholeCIDs
  · rw [hu] at hcpk
    simp only [if_false] at hcpk
    cases hF : List.filter (fun e => decide (e.1.hash = k.hash)) (entriesWithOff base elts) with
    | nil => rw [hF] at hmemF; simp at hmemF
    | cons t0 T =>
      rw [hF] at hreadF
      have ht0 : decide (t0.1.hash = k.hash) = true := by
        have : t0 ∈ t0 :: T := by simp
        rw [← hF] at this
        exact (List.mem_filter.mp this).2
      refine ⟨t0.2.2, ?_⟩
      rw [getVisit_mh_head (hreadF t0 (by simp)) (by simpa using ht0)]
  · rw [hu] at hcpk
    simp only [if_pos] at hcpk
    obtain ⟨p, hp⟩ := getVisit_whole_found _ hreadF ⟨(c0, off, p0), hmemF, hcpk⟩
    refine ⟨p, ?_⟩
    rw [hp]

/-- When the key's multihash singles out exactly one written entry, and that
entry was written under the key itself, `Get` returns the entry's payload
under the queried key and `Has` answers true — under either matching
policy. -/
theorem single_exact_lookup (ropts : ReadOptions) (rest : Bytes) {pre : Bytes}
    {elts : List (Cid × Bytes)}
    {base : Nat} {k : Cid} {off : Nat} {p : Bytes} (hbase : pre.length = base)
    (hfilter : List.filter (fun e => decide (e.1.hash = k.hash)) (entriesWithOff base elts) =
      [(k, off, p)]) :
    roGetFn ropts (pre ++ (sections elts ++ rest)) (idxOf base elts) k = .ok ⟨k, p⟩ ∧
    roHasFn ropts (pre ++ (sections elts ++ rest)) (idxOf base elts) k = .ok true := by
  have hcand : candidates (idxOf base elts) k = [off] := by
    rw [candidates_idxOf, hfilter]
    rfl
  have hmemT : (k, off, p) ∈ entriesWithOff base elts := by
    have hm : (k, off, p) ∈
        List.filter (fun e => decide (e.1.hash = k.hash)) (entriesWithOff base elts) := by
      rw [hfilter]; simp
    exact List.mem_of_mem_filter hm
  have hread : entryReadable (pre ++ (sections elts ++ rest)) k off p :=
    readable_of_layout elts base pre rest hbase (k, off, p) hmemT
  constructor
  · rw [roGetFn]
    simp only [hcand, List.isEmpty_cons, if_false, Bool.false_eq_true]
    have hv : getVisit ropts.blockstoreUseWholeCIDs (pre ++ (sections elts ++ rest)) k [off] =
        .ok (some p) := by
      cases hu : ropts.blockstoreUseWholeCIDs
      · simp only [getVisit, readNode_of_readable hread]
        simp
      · simp only [getVisit, readNode_of_readable hread]
        simp
    rw [hv]
  · rw [roHasFn]
    simp only [hcand, List.isEmpty_cons, if_false, Bool.false_eq_true]
    cases hu : ropts.blockstoreUseWholeCIDs
    · simp only [hasVisit, readSecHead_of_readable hread]
      simp
    · simp only [hasVisit, readSecHead_of_readable hread]
      simp

theorem rwHas_of_shape_covered {s : ReadWrite} {roots : List Cid} {elts : List (Cid × Bytes)}
    {k : Cid} (hs : Shape s roots elts)
    (hcov : coveredBy s.ropts.blockstoreUseWholeCIDs elts k) : rwHas s k = .ok true := by
  rw [rwHas]
  have hfin : s.finalizedB = false := by simp [ReadWrite.finalizedB, hs.2.2.2]
  rw [hfin]
  simp only [Bool.false_eq_true, if_false]
  have hdata : s.data = v1HeaderBytes roots 1 ++ (sections elts ++ []) := by
    rw [hs.1]; simp
  rw [hdata, hs.2.1]
  exact roHas_of_covered rfl hcov

theorem rwGet_of_shape_covered {s : ReadWrite} {roots : List Cid} {elts : List (Cid × Bytes)}
    {k : Cid} (hs : Shape s roots elts)
    (hcov : coveredBy s.ropts.blockstoreUseWholeCIDs elts k) :
    ∃ p, rwGet s k = .ok ⟨k, p⟩ := by
  rw [rwGet]
  have hfin : s.finalizedB = false := by simp [ReadWrite.finalizedB, hs.2.2.2]
  rw [hfin]
  simp only [Bool.false_eq_true, if_false]
  have hdata : s.data = v1HeaderBytes roots 1 ++ (sections elts ++ []) := by
    rw [hs.1]; simp
  rw [hdata, hs.2.1]
  exact roGet_of_covered rfl hcov

theorem rwLookup_of_shape_single {s : ReadWrite} {roots : List Cid} {elts : List (Cid × Bytes)}
    {k : Cid} {off : Nat} {p : Bytes} (hs : Shape s roots elts)
    (hfilter : List.filter (fun e => decide (e.1.hash = k.hash))
      (entriesWithOff (v1HeaderBytes roots 1).length elts) = [(k, off, p)]) :
    rwGet s k = .ok ⟨k, p⟩ ∧ rwHas s k = .ok true := by
  have hfin : s.finalizedB = false := by simp [ReadWrite.finalizedB, hs.2.2.2]
  have hdata : s.data = v1HeaderBytes roots 1 ++ (sections elts ++ []) := by
    rw [hs.1]; simp
  have h := single_exact_lookup s.ropts [] rfl hfilter
  constructor
  · rw [rwGet, hfin]
    simp only [Bool.false_eq_true, if_false]
    rw [hdata, hs.2.1]
    exact h.1
  · rw [rwHas, hfin]
    simp only [Bool.false_eq_true, if_false]
    rw [hdata, hs.2.1]
    exact h.2

theorem filter_triples_nil {base : Nat} {k : Cid} {elts : List (Cid × Bytes)}
    (h : ∀ cp ∈ elts, cp.1.hash ≠ k.hash) :
    List.filter (fun e => decide (e.1.hash = k.hash)) (entriesWithOff base elts) = [] := by
  rw [List.filter_eq_nil_iff]
  intro t ht
  have hm := entriesWithOff_mem base elts t ht
  simpa using h (t.1, t.2.2) hm

theorem filter_triples_single {base : Nat} {k : Cid} {p : Bytes} :
    List.filter (fun e => decide (e.1.hash = k.hash)) (entriesWithOff base [(k, p)]) =
      [(k, base, p)] := by
  simp [entriesWithOff, List.filter]

/-- Concrete material for the witnesses: a root CID and three block CIDs,
with `demoB` hash-equal to `demoA` but under a different codec. -/
def demoRoot : Cid := ⟨113, 18, [9]⟩

def demoA : Cid := ⟨113, 18, [1]⟩

def demoB : Cid := ⟨85, 18, [1]⟩

def demoC : Cid := ⟨113, 18, [2]⟩

def demoBlkA : Block := ⟨demoA, [10, 11]⟩

def demoBlkC : Block := ⟨demoC, [12]⟩

def demoS0 : ReadWrite := initStore [demoRoot] (mkHeader 0 0) {} {}

/-- C1: for every sequence of successful Put calls of blocks with pairwise
distinct keys (distinct under the store's matching policy, hence with
pairwise distinct multihashes) on a non-finalized read-write store holding no
hash-colliding prior entry, every Put succeeds, and immediately after the
i-th Put both `Has(k_i)` answers true and `Get(k_i)` returns a block whose
payload is `payload_i`. -/
theorem claim_C1 (s : ReadWrite) (roots : List Cid) (elts : List (Cid × Bytes))
    (blks : List Block) (hs : Shape s roots elts)
    (hfresh : ∀ b ∈ blks, ∀ cp ∈ elts, cp.1.hash ≠ b.cid.hash)
    (hdist : List.Pairwise (fun a b => a.cid.hash ≠ b.cid.hash) blks)
    (i : Nat) (hi : i < blks.length) :
    putAllOk s blks ∧
    rwHas (putList s (blks.take (i + 1))) (blks[i].cid) = .ok true ∧
    rwGet (putList s (blks.take (i + 1))) (blks[i].cid) =
      .ok ⟨blks[i].cid, blks[i].rawData⟩ := by
  have hsub : List.Sublist (blks.take (i + 1)) blks := List.take_sublist _ _
  have hdist' : List.Pairwise (fun a b => a.cid.hash ≠ b.cid.hash) (blks.take (i + 1)) :=
    hdist.sublist hsub
  have hfresh' : ∀ b ∈ blks.take (i + 1), ∀ cp ∈ elts, cp.1.hash ≠ b.cid.hash :=
    fun b hb => hfresh b (hsub.mem hb)
  obtain ⟨hshape', _⟩ := putList_shape_fresh (blks.take (i + 1)) s elts hs hfresh' hdist'
  have htake : blks.take (i + 1) = blks.take i ++ [blks[i]] := by
    rw [List.take_succ, List.getElem?_eq_getElem hi]
    rfl
  have hpw2 := hdist'
  rw [htake] at hpw2
  have hx := (List.pairwise_append.mp hpw2).2.2
  have hfr2 : ∀ cp ∈ (blks.take i).map (fun b => (b.cid, b.rawData)),
      cp.1.hash ≠ blks[i].cid.hash := by
    intro cp hcp
    obtain ⟨b, hb, hbe⟩ := List.mem_map.mp hcp
    rw [← hbe]
    exact hx b hb (blks[i]) (by simp)
  have hfr1 : ∀ cp ∈ elts, cp.1.hash ≠ blks[i].cid.hash :=
    fun cp hcp => fun h => hfresh (blks[i]) (List.getElem_mem hi) cp hcp h
  have hfilter :
      List.filter (fun e => decide (e.1.hash = blks[i].cid.hash))
        (entriesWithOff (v1HeaderBytes roots 1).length
          (elts ++ (blks.take (i + 1)).map (fun b => (b.cid, b.rawData)))) =
      [(blks[i].cid,
        (v1HeaderBytes roots 1).length + (sections elts).length +
          (sections ((blks.take i).map (fun b => (b.cid, b.rawData)))).length,
        blks[i].rawData)] := by
    rw [htake, List.map_append]
    rw [entriesWithOff_append, List.filter_append]
    rw [entriesWithOff_append, List.filter_append]
    rw [filter_triples_nil hfr1, filter_triples_nil hfr2]
    simp only [List.map_cons, List.map_nil, List.nil_append]
    rw [filter_triples_single]
  have hlook := rwLookup_of_shape_single hshape' hfilter
  refine ⟨(putList_shape_fresh blks s elts hs hfresh hdist).2, hlook.2, hlook.1⟩

theorem getVisit_whole_precise {data : Bytes} {k : Cid} :
    ∀ (L1 : List (Cid × Nat × Bytes)) (t : Cid × Nat × Bytes) (L2 : List (Cid × Nat × Bytes)),
      TriplesReadable data (L1 ++ t :: L2) → (∀ u ∈ L1, u.1 ≠ k) → t.1 = k →
      getVisit true data k ((L1 ++ t :: L2).map (fun e => e.2.1)) = .ok (some t.2.2) := by
  intro L1
  induction L1 with
  | nil =>
    intro t L2 hr _ ht
    simp only [List.nil_append, List.map_cons, getVisit]
    rw [readNode_of_readable (hr t (by simp))]
    simp [ht]
  | cons a T ih =>
    intro t L2 hr hne ht
    simp only [List.cons_append, List.map_cons, getVisit]
    rw [readNode_of_readable (hr a (by simp))]
    have ha : ¬ (a.1 = k) := hne a (by simp)
    simp only [ha, if_false]
    exact ih t L2 (fun u hu => hr u (List.mem_cons_of_mem _ hu)) (fun u hu => hne u (by simp [hu])) ht

theorem rwGet_mh_first {s : ReadWrite} {roots : List Cid} {elts : List (Cid × Bytes)} {k : Cid}
    {t0 : Cid × Nat × Bytes} {T : List (Cid × Nat × Bytes)} (hs : Shape s roots elts)
    (hu : s.ropts.blockstoreUseWholeCIDs = false)
    (hfilter : List.filter (fun e => decide (e.1.hash = k.hash))
      (entriesWithOff (v1HeaderBytes roots 1).length elts) = t0 :: T) :
    rwGet s k = .ok ⟨k, t0.2.2⟩ := by
  have hfin : s.finalizedB = false := by simp [ReadWrite.finalizedB, hs.2.2.2]
  have hdata : s.data = v1HeaderBytes roots 1 ++ (sections elts ++ []) := by
    rw [hs.1]; simp
  have hcand : candidates s.idx k = (t0 :: T).map (fun e => e.2.1) := by
    rw [hs.2.1, candidates_idxOf, hfilter]
  have ht0m : t0 ∈ entriesWithOff (v1HeaderBytes roots 1).length elts :=
    List.mem_of_mem_filter (hfilter ▸ List.mem_cons_self t0 T)
  have hh : t0.1.hash = k.hash := by
    have := (List.mem_filter.mp (hfilter ▸ List.mem_cons_self t0 T)).2
    simpa using this
  have hread : entryReadable s.data t0.1 t0.2.1 t0.2.2 := by
    rw [hdata]
    exact readable_of_layout elts _ _ [] rfl t0 ht0m
  rw [rwGet, hfin]
  simp only [Bool.false_eq_true, if_false]
  rw [roGetFn]
  simp only [hcand, hu, List.map_cons, List.isEmpty_cons, if_false, Bool.false_eq_true]
  have hv := getVisit_mh_head (T := T) hread hh
  simp only [List.map_cons] at hv
  rw [hv]

theorem rwGet_whole_precise (L1 : List (Cid × Nat × Bytes)) {s : ReadWrite}
    {roots : List Cid} {elts : List (Cid × Bytes)}
    {k : Cid} {t : Cid × Nat × Bytes}
    {L2 : List (Cid × Nat × Bytes)} (hs : Shape s roots elts)
    (hu : s.ropts.blockstoreUseWholeCIDs = true)
    (hfilter : List.filter (fun e => decide (e.1.hash = k.hash))
      (entriesWithOff (v1HeaderBytes roots 1).length elts) = L1 ++ t :: L2)
    (hne : ∀ u ∈ L1, u.1 ≠ k) (ht : t.1 = k) :
    rwGet s k = .ok ⟨k, t.2.2⟩ := by
  have hfin : s.finalizedB = false := by simp [ReadWrite.finalizedB, hs.2.2.2]
  have hdata : s.data = v1HeaderBytes roots 1 ++ (sections elts ++ []) := by
    rw [hs.1]; simp
  have hcand : candidates s.idx k = (L1 ++ t :: L2).map (fun e => e.2.1) := by
    rw [hs.2.1, candidates_idxOf, hfilter]
  have hreadF : TriplesReadable s.data (L1 ++ t :: L2) := by
    intro u hu2
    rw [hdata]
    exact readable_of_layout elts _ _ [] rfl u
      (List.mem_of_mem_filter (hfilter ▸ hu2))
  have hv := getVisit_whole_precise L1 t L2 hreadF hne ht
  rw [rwGet, hfin]
  simp only [Bool.false_eq_true, if_false]
  rw [roGetFn]
  simp only [hcand, hu]
  have hnonempty : ((L1 ++ t :: L2).map (fun e => e.2.1)).isEmpty = false := by
    simp
  simp only [hnonempty, if_false, Bool.false_eq_true]
  rw [hv]

theorem filter_unique_ex :
    ∀ (L : List Block) (base : Nat),
      List.Pairwise (fun a b => a.cid.hash ≠ b.cid.hash) L →
      ∀ j, (hj : j < L.length) →
        ∃ off, List.filter (fun e => decide (e.1.hash = L[j].cid.hash))
          (entriesWithOff base (L.map (fun b => (b.cid, b.rawData)))) =
          [(L[j].cid, off, L[j].rawData)] := by
  intro L
  induction L with
  | nil => intro base _ j hj; simp at hj
  | cons bl t ih =>
    intro base hpw j hj
    obtain ⟨hhd, htl⟩ := List.pairwise_cons.mp hpw
    match j with
    | 0 =>
      refine ⟨base, ?_⟩
      simp only [List.map_cons, entriesWithOff, List.getElem_cons_zero, List.filter_cons]
      have hnil : List.filter (fun e => decide (e.1.hash = bl.cid.hash))
          (entriesWithOff (base + (sectionBytes bl.cid bl.rawData).length)
            (t.map (fun b => (b.cid, b.rawData)))) = [] := by
        apply filter_triples_nil
        intro cp hcp
        obtain ⟨b, hb, hbe⟩ := List.mem_map.mp hcp
        rw [← hbe]
        intro h
        exact hhd b hb h.symm
      rw [hnil]
      simp
    | j' + 1 =>
      have hj' : j' < t.length := by simpa using hj
      obtain ⟨off, hoff⟩ := ih (base + (sectionBytes bl.cid bl.rawData).length) htl j' hj'
      refine ⟨off, ?_⟩
      simp only [List.map_cons, entriesWithOff, List.getElem_cons_succ, List.filter_cons]
      have hne : decide (bl.cid.hash = t[j'].cid.hash) = false := by
        simp only [decide_eq_false_iff_not]
        exact hhd t[j'] (t.getElem_mem hj')
      rw [hne, hoff]
      simp

theorem putManyGo_fail_run (roots : List Cid) (junk : Bytes) :
    ∀ (blks : List Block) (i j : Nat) (s : ReadWrite) (elts : List (Cid × Bytes)),
      Shape s roots elts →
      (∀ b ∈ blks, ∀ cp ∈ elts, cp.1.hash ≠ b.cid.hash) →
      List.Pairwise (fun a b => a.cid.hash ≠ b.cid.hash) blks →
      i < blks.length →
      putManyGo (some (j + i)) junk blks j s =
        ({ s with
            data := (v1HeaderBytes roots 1 ++
              sections (elts ++ (blks.take i).map (fun b => (b.cid, b.rawData)))) ++ junk,
            posn := (v1HeaderBytes roots 1 ++
              sections (elts ++ (blks.take i).map (fun b => (b.cid, b.rawData)))).length +
              junk.length,
            idx := idxOf (v1HeaderBytes roots 1).length
              (elts ++ (blks.take i).map (fun b => (b.cid, b.rawData))) },
          some .writeFailed) := by
  intro blks
  induction blks with
  | nil => intro i j s elts _ _ _ hi; simp at hi
  | cons bl t ih =>
    intro i j s elts hs hfresh hpw hi
    have hfrIdx : ∀ e ∈ s.idx, e.1.hash ≠ bl.cid.hash := by
      intro e he
      obtain ⟨p, hp⟩ := idxOf_mem_cid (hs.2.1 ▸ he)
      exact hfresh bl (by simp) (e.1, p) hp
    have hskip : skipB s bl.cid = false := skipB_false_of_fresh hfrIdx
    match i with
    | 0 =>
      simp only [Nat.add_zero]
      rw [putManyGo_fail hskip]
      obtain ⟨sd, sp, sh, si, sr, sw⟩ := s
      obtain ⟨h1, h2, h3, h4⟩ := hs
      simp only at h1 h2 h3
      subst h1 h2 h3
      simp only [List.take_zero, List.map_nil, List.append_nil, writeAt_append,
        Prod.mk.injEq, ReadWrite.mk.injEq, and_true, true_and]
    | i' + 1 =>
      have hne : some (j + (i' + 1)) ≠ some j := by simp
      rw [putManyGo_write hskip hne]
      have hre : j + (i' + 1) = (j + 1) + i' := by omega
      rw [hre]
      have hfresh' : ∀ b ∈ t, ∀ cp ∈ elts ++ [(bl.cid, bl.rawData)], cp.1.hash ≠ b.cid.hash := by
        intro b hb cp hcp
        rcases List.mem_append.mp hcp with h | h
        · exact hfresh b (List.mem_cons_of_mem _ hb) cp h
        · have : cp = (bl.cid, bl.rawData) := by simpa using h
          rw [this]
          exact (List.pairwise_cons.mp hpw).1 b hb
      have hi' : i' < t.length := by simpa using hi
      rw [ih i' (j + 1) (writtenStore s bl) (elts ++ [(bl.cid, bl.rawData)])
        (shape_write hs bl) hfresh' (List.pairwise_cons.mp hpw).2 hi']
      have hlist : (elts ++ [(bl.cid, bl.rawData)]) ++
          (t.take i').map (fun b => (b.cid, b.rawData)) =
          elts ++ ((bl :: t).take (i' + 1)).map (fun b => (b.cid, b.rawData)) := by
        simp [List.take_succ_cons]
      rw [hlist]
      obtain ⟨sd, sp, sh, si, sr, sw⟩ := s
      rfl

/-- C10: PutMany is not atomic. If writing the i-th block's section fails,
PutMany returns the write error; every block before position i remains
written and indexed — Has answers true and Get returns its payload on the
partial store — while the i-th block's key is absent from the index. (Blocks
hash-fresh and pairwise hash-distinct, so no put is deduplicated away.) -/
theorem claim_C10 (s : ReadWrite) (roots : List Cid) (elts : List (Cid × Bytes))
    (blks : List Block) (junk : Bytes) (i : Nat) (hs : Shape s roots elts)
    (hfresh : ∀ b ∈ blks, ∀ cp ∈ elts, cp.1.hash ≠ b.cid.hash)
    (hdist : List.Pairwise (fun a b => a.cid.hash ≠ b.cid.hash) blks)
    (hi : i < blks.length) :
    (rwPutManyF (some i) junk s blks).2 = some .writeFailed ∧
    (rwPutManyF (some i) junk s blks).1.idx =
      idxOf (v1HeaderBytes roots 1).length
        (elts ++ (blks.take i).map (fun b => (b.cid, b.rawData))) ∧
    (∀ e ∈ (rwPutManyF (some i) junk s blks).1.idx, e.1 ≠ blks[i].cid) ∧
    (∀ j, (hj : j < i) →
      rwHas (rwPutManyF (some i) junk s blks).1 (blks[j].cid) = .ok true ∧
      rwGet (rwPutManyF (some i) junk s blks).1 (blks[j].cid) =
        .ok ⟨blks[j].cid, blks[j].rawData⟩) := by
  have hrun := putManyGo_fail_run roots junk blks i 0 s elts hs hfresh hdist hi
  simp only [Nat.zero_add] at hrun
  have hfin : s.finalizedB = false := by simp [ReadWrite.finalizedB, hs.2.2.2]
  have heq : rwPutManyF (some i) junk s blks =
      ({ s with
          data := (v1HeaderBytes roots 1 ++
            sections (elts ++ (blks.take i).map (fun b => (b.cid, b.rawData)))) ++ junk,
          posn := (v1HeaderBytes roots 1 ++
            sections (elts ++ (blks.take i).map (fun b => (b.cid, b.rawData)))).length +
            junk.length,
          idx := idxOf (v1HeaderBytes roots 1).length
            (elts ++ (blks.take i).map (fun b => (b.cid, b.rawData))) },
        some .writeFailed) := by
    rw [rwPutManyF, hfin]
    simp only [Bool.false_eq_true, if_false]
    exact hrun
  rw [heq]
  have hsubtk : List.Sublist (blks.take i) blks := List.take_sublist _ _
  have hpwtake : List.Pairwise (fun a b => a.cid.hash ≠ b.cid.hash) (blks.take i) :=
    hdist.sublist hsubtk
  have hsub1 : List.Sublist (blks.take (i + 1)) blks := List.take_sublist _ _
  have hpw1 : List.Pairwise (fun a b => a.cid.hash ≠ b.cid.hash) (blks.take (i + 1)) :=
    hdist.sublist hsub1
  have htake : blks.take (i + 1) = blks.take i ++ [blks[i]] := by
    rw [List.take_succ, List.getElem?_eq_getElem hi]
    rfl
  rw [htake] at hpw1
  have hx := (List.pairwise_append.mp hpw1).2.2
  refine ⟨rfl, rfl, ?_, ?_⟩
  · intro e he
    obtain ⟨p, hp⟩ := idxOf_mem_cid he
    intro hcid
    rcases List.mem_append.mp hp with h | h
    · exact hfresh blks[i] (List.getElem_mem hi) (e.1, p) h (by rw [hcid])
    · obtain ⟨b, hb, hbe⟩ := List.mem_map.mp h
      have : b.cid = e.1 := congrArg Prod.fst hbe
      exact hx b hb blks[i] (by simp) (by rw [this, hcid])
  · intro j hj
    have hjlen : j < blks.length := by omega
    have hfreshj : ∀ cp ∈ elts, cp.1.hash ≠ blks[j].cid.hash := by
      intro cp hcp
      exact hfresh blks[j] (List.getElem_mem hjlen) cp hcp
    have hjtake : j < (blks.take i).length := by
      rw [List.length_take]
      omega
    obtain ⟨off, hoff⟩ := filter_unique_ex (blks.take i)
      ((v1HeaderBytes roots 1).length + (sections elts).length) hpwtake j hjtake
    have hgt : (blks.take i)[j] = blks[j] := List.getElem_take _
    rw [hgt] at hoff
    have hfilter : List.filter (fun e => decide (e.1.hash = blks[j].cid.hash))
        (entriesWithOff (v1HeaderBytes roots 1).length
          (elts ++ (blks.take i).map (fun b => (b.cid, b.rawData)))) =
        [(blks[j].cid, off, blks[j].rawData)] := by
      rw [entriesWithOff_append, List.filter_append, filter_triples_nil hfreshj, hoff]
      simp
    have h := single_exact_lookup s.ropts junk rfl hfilter
    have hD : (v1HeaderBytes roots 1 ++
        sections (elts ++ (blks.take i).map (fun b => (b.cid, b.rawData)))) ++ junk =
        v1HeaderBytes roots 1 ++
          (sections (elts ++ (blks.take i).map (fun b => (b.cid, b.rawData))) ++ junk) := by
      rw [List.append_assoc]
    constructor
    · rw [rwHas]
      have hf2 : ({ s with
          data := (v1HeaderBytes roots 1 ++
            sections (elts ++ (blks.take i).map (fun b => (b.cid, b.rawData)))) ++ junk,
          posn := (v1HeaderBytes roots 1 ++
            sections (elts ++ (blks.take i).map (fun b => (b.cid, b.rawData)))).length +
            junk.length,
          idx := idxOf (v1HeaderBytes roots 1).length
            (elts ++ (blks.take i).map (fun b => (b.cid, b.rawData))) } :
          ReadWrite).finalizedB = false := by
        simp [ReadWrite.finalizedB, hs.2.2.2]
      rw [hf2]
      simp only [Bool.false_eq_true, if_false]
      show roHasFn s.ropts _ _ _ = _
      rw [hD]
      exact h.2
    · rw [rwGet]
      have hf2 : ({ s with
          data := (v1HeaderBytes roots 1 ++
            sections (elts ++ (blks.take i).map (fun b => (b.cid, b.rawData)))) ++ junk,
          posn := (v1HeaderBytes roots 1 ++
            sections (elts ++ (blks.take i).map (fun b => (b.cid, b.rawData)))).length +
            junk.length,
          idx := idxOf (v1HeaderBytes roots 1).length
            (elts ++ (blks.take i).map (fun b => (b.cid, b.rawData))) } :
          ReadWrite).finalizedB = false := by
        simp [ReadWrite.finalizedB, hs.2.2.2]
      rw [hf2]
      simp only [Bool.false_eq_true, if_false]
      show roGetFn s.ropts _ _ _ = _
      rw [hD]
      exact h.1

theorem claim_C10_witness :
    (Shape demoS0 [demoRoot] [] ∧
      (∀ b ∈ [demoBlkA, demoBlkC], ∀ cp ∈ ([] : List (Cid × Bytes)), cp.1.hash ≠ b.cid.hash) ∧
      List.Pairwise (fun a b => a.cid.hash ≠ b.cid.hash) [demoBlkA, demoBlkC] ∧
      1 < [demoBlkA, demoBlkC].length) ∧
    ((rwPutManyF (some 1) [7, 7] demoS0 [demoBlkA, demoBlkC]).2 = some .writeFailed ∧
      (rwPutManyF (some 1) [7, 7] demoS0 [demoBlkA, demoBlkC]).1.idx =
        idxOf (v1HeaderBytes [demoRoot] 1).length
          (([] : List (Cid × Bytes)) ++
            ([demoBlkA, demoBlkC].take 1).map (fun b => (b.cid, b.rawData))) ∧
      (∀ e ∈ (rwPutManyF (some 1) [7, 7] demoS0 [demoBlkA, demoBlkC]).1.idx,
        e.1 ≠ [demoBlkA, demoBlkC][1].cid) ∧
      (∀ j, (hj : j < 1) →
        rwHas (rwPutManyF (some 1) [7, 7] demoS0 [demoBlkA, demoBlkC]).1
          (([demoBlkA, demoBlkC].get ⟨j, by simp; omega⟩).cid) = .ok true ∧
        rwGet (rwPutManyF (some 1) [7, 7] demoS0 [demoBlkA, demoBlkC]).1
          (([demoBlkA, demoBlkC].get ⟨j, by simp; omega⟩).cid) =
          .ok ⟨([demoBlkA, demoBlkC].get ⟨j, by simp; omega⟩).cid,
            ([demoBlkA, demoBlkC].get ⟨j, by simp; omega⟩).rawData⟩)) :=
  ⟨⟨by decide, by decide, by decide, by decide⟩,
    claim_C10 demoS0 [demoRoot] [] [demoBlkA, demoBlkC] [7, 7] 1 (by decide) (by decide)
      (by decide) (by decide)⟩

/-- C6: put two blocks whose keys share a multihash but differ in codec into
a store with duplicate puts disallowed. With UseWholeCIDs on, both are
stored (two index records at consecutive section offsets) and Get on each
key returns that key's own payload. With UseWholeCIDs off — the default —
the second put is skipped (the store is unchanged, only the first block's
record exists), and Get on the second key returns the first block's
payload. -/
theorem claim_C6 (s : ReadWrite) (roots : List Cid) (elts : List (Cid × Bytes))
    (c1 c2 : Cid) (p1 p2 : Bytes) (hs : Shape s roots elts)
    (hh : c1.hash = c2.hash) (hcodec : c1.codec ≠ c2.codec)
    (hfresh : ∀ cp ∈ elts, cp.1.hash ≠ c1.hash)
    (hdup : s.wopts.blockstoreAllowDuplicatePuts = false) :
    (s.ropts.blockstoreUseWholeCIDs = true →
      rwGet (rwPut (rwPut s ⟨c1, p1⟩).1 ⟨c2, p2⟩).1 c1 = .ok ⟨c1, p1⟩ ∧
      rwGet (rwPut (rwPut s ⟨c1, p1⟩).1 ⟨c2, p2⟩).1 c2 = .ok ⟨c2, p2⟩ ∧
      (rwPut (rwPut s ⟨c1, p1⟩).1 ⟨c2, p2⟩).1.idx =
        s.idx ++ [(c1, s.posn), (c2, s.posn + (sectionBytes c1 p1).length)]) ∧
    (s.ropts.blockstoreUseWholeCIDs = false →
      (rwPut (rwPut s ⟨c1, p1⟩).1 ⟨c2, p2⟩).1 = (rwPut s ⟨c1, p1⟩).1 ∧
      (rwPut s ⟨c1, p1⟩).1.idx = s.idx ++ [(c1, s.posn)] ∧
      rwGet (rwPut (rwPut s ⟨c1, p1⟩).1 ⟨c2, p2⟩).1 c2 = .ok ⟨c2, p1⟩) := by
  have hne12 : c1 ≠ c2 := fun h => hcodec (congrArg Cid.codec h)
  have hfr1 : ∀ e ∈ s.idx, e.1.hash ≠ c1.hash := by
    intro e he
    obtain ⟨p, hp⟩ := idxOf_mem_cid (hs.2.1 ▸ he)
    exact hfresh (e.1, p) hp
  have hsk1 : skipB s c1 = false := skipB_false_of_fresh hfr1
  have hput1 : rwPut s ⟨c1, p1⟩ = (writtenStore s ⟨c1, p1⟩, none) := rwPut_write hs.2.2.2 hsk1
  have hs1 : Shape (writtenStore s ⟨c1, p1⟩) roots (elts ++ [(c1, p1)]) := shape_write hs _
  have hw1 : (writtenStore s ⟨c1, p1⟩).wopts = s.wopts := rfl
  have hr1 : (writtenStore s ⟨c1, p1⟩).ropts = s.ropts := rfl
  -- triples of the second segment
  have hT2 : ∀ b2 : Nat, entriesWithOff b2 [(c1, p1), (c2, p2)] =
      [(c1, b2, p1), (c2, b2 + (sectionBytes c1 p1).length, p2)] := by
    intro b2
    simp [entriesWithOff]
  constructor
  · -- whole-CID mode: both stored
    intro hu
    have hr1u : (writtenStore s ⟨c1, p1⟩).ropts.blockstoreUseWholeCIDs = true := hu
    have hex : hasExactCID (writtenStore s ⟨c1, p1⟩).idx c2 = false := by
      rw [Bool.eq_false_iff]
      intro htrue
      obtain ⟨e, he, hec⟩ := hasExactCID_eq_true.mp htrue
      obtain ⟨p, hp⟩ := idxOf_mem_cid (hs1.2.1 ▸ he)
      rcases List.mem_append.mp hp with h | h
      · exact hfresh (e.1, p) h (by rw [hec, ← hh])
      · have : e.1 = c1 := by simpa using congrArg Prod.fst (List.mem_singleton.mp h)
        exact hne12 (this ▸ hec)
    have hsk2 : skipB (writtenStore s ⟨c1, p1⟩) c2 = false := by
      rw [skipB, hw1, hr1, hdup, hu, hex]
      simp
    have hput2 : rwPut (writtenStore s ⟨c1, p1⟩) ⟨c2, p2⟩ =
        (writtenStore (writtenStore s ⟨c1, p1⟩) ⟨c2, p2⟩, none) :=
      rwPut_write hs1.2.2.2 hsk2
    have hs2 : Shape (writtenStore (writtenStore s ⟨c1, p1⟩) ⟨c2, p2⟩) roots
        (elts ++ [(c1, p1), (c2, p2)]) := by
      have h2 := shape_write hs1 (⟨c2, p2⟩ : Block)
      simpa [List.append_assoc] using h2
    have hb2 : (v1HeaderBytes roots 1).length + (sections elts).length =
        (v1HeaderBytes roots 1).length + (sections elts).length := rfl
    have hfilter1 : List.filter (fun e => decide (e.1.hash = c1.hash))
        (entriesWithOff (v1HeaderBytes roots 1).length (elts ++ [(c1, p1), (c2, p2)])) =
        [] ++ ((c1, (v1HeaderBytes roots 1).length + (sections elts).length, p1) ::
          [(c2, (v1HeaderBytes roots 1).length + (sections elts).length +
            (sectionBytes c1 p1).length, p2)]) := by
      rw [entriesWithOff_append, List.filter_append, filter_triples_nil hfresh, hT2]
      simp [List.filter, ← hh]
    have hfilter2 : List.filter (fun e => decide (e.1.hash = c2.hash))
        (entriesWithOff (v1HeaderBytes roots 1).length (elts ++ [(c1, p1), (c2, p2)])) =
        [(c1, (v1HeaderBytes roots 1).length + (sections elts).length, p1)] ++
          ((c2, (v1HeaderBytes roots 1).length + (sections elts).length +
            (sectionBytes c1 p1).length, p2) :: []) := by
      have hfresh2 : ∀ cp ∈ elts, cp.1.hash ≠ c2.hash := by
        intro cp hcp
        rw [← hh]
        exact hfresh cp hcp
      rw [entriesWithOff_append, List.filter_append, filter_triples_nil hfresh2, hT2]
      simp [List.filter, hh]
    rw [hput1, hput2]
    refine ⟨?_, ?_, ?_⟩
    · exact rwGet_whole_precise [] hs2 hr1u hfilter1 (by simp) rfl
    · exact rwGet_whole_precise
        [(c1, (v1HeaderBytes roots 1).length + (sections elts).length, p1)]
        hs2 hr1u hfilter2 (by simpa using hne12) rfl
    · show insertNoReplace (writtenStore s ⟨c1, p1⟩).idx c2 (writtenStore s ⟨c1, p1⟩).posn =
        s.idx ++ [(c1, s.posn), (c2, s.posn + (sectionBytes c1 p1).length)]
      simp [writtenStore, insertNoReplace]
  · -- multihash mode: second put deduplicated
    intro hu
    have hr1u : (writtenStore s ⟨c1, p1⟩).ropts.blockstoreUseWholeCIDs = false := hu
    have hget2 : (iiGet (writtenStore s ⟨c1, p1⟩).idx c2).isSome = true := by
      rw [iiGet_isSome]
      refine ⟨(c1, s.posn), ?_, hh⟩
      show (c1, s.posn) ∈ insertNoReplace s.idx c1 s.posn
      simp [insertNoReplace]
    have hsk2 : skipB (writtenStore s ⟨c1, p1⟩) c2 = true := by
      rw [skipB, hw1, hr1, hdup, hu, hget2]
      simp
    have hput2 : rwPut (writtenStore s ⟨c1, p1⟩) ⟨c2, p2⟩ = (writtenStore s ⟨c1, p1⟩, none) :=
      rwPut_skip hs1.2.2.2 hsk2
    have hfresh2 : ∀ cp ∈ elts, cp.1.hash ≠ c2.hash := by
      intro cp hcp
      rw [← hh]
      exact hfresh cp hcp
    have hfilter : List.filter (fun e => decide (e.1.hash = c2.hash))
        (entriesWithOff (v1HeaderBytes roots 1).length (elts ++ [(c1, p1)])) =
        (c1, (v1HeaderBytes roots 1).length + (sections elts).length, p1) :: [] := by
      rw [entriesWithOff_append, List.filter_append, filter_triples_nil hfresh2]
      simp [entriesWithOff, List.filter, hh]
    refine ⟨?_, ?_, ?_⟩
    · rw [hput1, hput2]
    · rw [hput1]
      show insertNoReplace s.idx c1 s.posn = s.idx ++ [(c1, s.posn)]
      rfl
    · rw [hput1, hput2]
      exact rwGet_mh_first hs1 hr1u hfilter

theorem claim_C6_witness :
    (Shape demoS0 [demoRoot] [] ∧ demoA.hash = demoB.hash ∧ demoA.codec ≠ demoB.codec ∧
      (∀ cp ∈ ([] : List (Cid × Bytes)), cp.1.hash ≠ demoA.hash) ∧
      demoS0.wopts.blockstoreAllowDuplicatePuts = false) ∧
    ((demoS0.ropts.blockstoreUseWholeCIDs = true →
      rwGet (rwPut (rwPut demoS0 ⟨demoA, [10, 11]⟩).1 ⟨demoB, [99]⟩).1 demoA =
        .ok ⟨demoA, [10, 11]⟩ ∧
      rwGet (rwPut (rwPut demoS0 ⟨demoA, [10, 11]⟩).1 ⟨demoB, [99]⟩).1 demoB =
        .ok ⟨demoB, [99]⟩ ∧
      (rwPut (rwPut demoS0 ⟨demoA, [10, 11]⟩).1 ⟨demoB, [99]⟩).1.idx =
        demoS0.idx ++ [(demoA, demoS0.posn),
          (demoB, demoS0.posn + (sectionBytes demoA [10, 11]).length)]) ∧
     (demoS0.ropts.blockstoreUseWholeCIDs = false →
      (rwPut (rwPut demoS0 ⟨demoA, [10, 11]⟩).1 ⟨demoB, [99]⟩).1 =
        (rwPut demoS0 ⟨demoA, [10, 11]⟩).1 ∧
      (rwPut demoS0 ⟨demoA, [10, 11]⟩).1.idx = demoS0.idx ++ [(demoA, demoS0.posn)] ∧
      rwGet (rwPut (rwPut demoS0 ⟨demoA, [10, 11]⟩).1 ⟨demoB, [99]⟩).1 demoB =
        .ok ⟨demoB, [10, 11]⟩)) :=
  ⟨⟨by decide, by decide, by decide, by decide, by decide⟩,
    claim_C6 demoS0 [demoRoot] [] demoA demoB [10, 11] [99] (by decide) (by decide)
      (by decide) (by decide) (by decide)⟩


theorem coveredBy_append_left {u : Bool} {l l' : List (Cid × Bytes)} {k : Cid}
    (h : coveredBy u l k) : coveredBy u (l ++ l') k := by
  obtain ⟨cp, hcp, hk⟩ := h
  exact ⟨cp, List.mem_append_left _ hcp, hk⟩

theorem skipB_true_cases {s : ReadWrite} {c : Cid} (h : skipB s c = true) :
    (s.ropts.blockstoreUseWholeCIDs = true ∧ ∃ e ∈ s.idx, e.1 = c) ∨
    (s.ropts.blockstoreUseWholeCIDs = false ∧ ∃ e ∈ s.idx, e.1.hash = c.hash) := by
  rw [skipB] at h
  rw [Bool.and_eq_true, Bool.or_eq_true, Bool.and_eq_true, Bool.and_eq_true] at h
  rcases h.2 with ⟨hu, he⟩ | ⟨hu, he⟩
  · exact Or.inl ⟨hu, hasExactCID_eq_true.mp he⟩
  · rw [Bool.not_eq_true'] at hu
    exact Or.inr ⟨hu, iiGet_isSome.mp he⟩

theorem rwPut_fst_fields (s : ReadWrite) (bl : Block) :
    (rwPut s bl).1.header = s.header ∧ (rwPut s bl).1.ropts = s.ropts ∧
    (rwPut s bl).1.wopts = s.wopts := by
  cases hf : s.finalizedB <;> cases hsk : skipB s bl.cid <;>
    simp [rwPut, rwPutMany, putManyGo, hf, hsk, writtenStore]

theorem putList_preserve : ∀ (blks : List Block) (s : ReadWrite),
    (putList s blks).header = s.header ∧ (putList s blks).ropts = s.ropts ∧
    (putList s blks).wopts = s.wopts := by
  intro blks
  induction blks with
  | nil => intro s; exact ⟨rfl, rfl, rfl⟩
  | cons bl t ih =>
    intro s
    rw [putList]
    obtain ⟨h1, h2, h3⟩ := ih (rwPut s bl).1
    obtain ⟨g1, g2, g3⟩ := rwPut_fst_fields s bl
    exact ⟨h1.trans g1, h2.trans g2, h3.trans g3⟩

theorem putList_shape_general {roots : List Cid} (u : Bool) :
    ∀ (blks : List Block) (s : ReadWrite) (elts : List (Cid × Bytes)),
      Shape s roots elts → s.ropts.blockstoreUseWholeCIDs = u →
      ∃ elts2, Shape (putList s blks) roots (elts ++ elts2) ∧
        (∀ b ∈ blks, coveredBy u (elts ++ elts2) b.cid) ∧ putAllOk s blks := by
  intro blks
  induction blks with
  | nil =>
    intro s elts hs _
    exact ⟨[], by simpa using hs, by simp, trivial⟩
  | cons bl t ih =>
    intro s elts hs hu
    cases hskip : skipB s bl.cid
    · -- written
      have hput := rwPut_write hs.2.2.2 hskip
      have hs' := shape_write hs bl
      obtain ⟨elts2, hsh, hcov, hok⟩ := ih (writtenStore s bl) (elts ++ [(bl.cid, bl.rawData)])
        hs' (by simpa [writtenStore] using hu)
      refine ⟨[(bl.cid, bl.rawData)] ++ elts2, ?_, ?_, ?_⟩
      · rw [putList, hput]
        simpa [List.append_assoc] using hsh
      · intro b hb
        rcases List.mem_cons.mp hb with h | h
        · subst h
          exact ⟨(b.cid, b.rawData), by simp, by cases u <;> simp⟩
        · have := hcov b h
          simpa [List.append_assoc] using this
      · show (rwPut s bl).2 = none ∧ putAllOk (rwPut s bl).1 t
        rw [hput]
        exact ⟨rfl, hok⟩
    · -- deduplicated: skipped, store unchanged
      have hput := rwPut_skip hs.2.2.2 hskip
      have hcovbl : coveredBy u elts bl.cid := by
        rcases skipB_true_cases hskip with ⟨hu', he⟩ | ⟨hu', he⟩ <;>
          rw [hu] at hu' <;> subst hu'
        · obtain ⟨e, hei, hec⟩ := he
          obtain ⟨p, hp⟩ := idxOf_mem_cid (hs.2.1 ▸ hei)
          exact ⟨(e.1, p), hp, by simpa using hec⟩
        · obtain ⟨e, hei, hec⟩ := he
          obtain ⟨p, hp⟩ := idxOf_mem_cid (hs.2.1 ▸ hei)
          exact ⟨(e.1, p), hp, by simpa using hec⟩
      obtain ⟨elts2, hsh, hcov, hok⟩ := ih s elts hs hu
      refine ⟨elts2, ?_, ?_, ?_⟩
      · rw [putList, hput]
        exact hsh
      · intro b hb
        rcases List.mem_cons.mp hb with h | h
        · subst h
          exact coveredBy_append_left hcovbl
        · exact hcov b h
      · show (rwPut s bl).2 = none ∧ putAllOk (rwPut s bl).1 t
        rw [hput]
        exact ⟨rfl, hok⟩

/-- Resuming the file a non-finalized session left behind, with the same
roots and padding, reconstructs exactly the same store state: same data,
same cursor, same insertion index. -/
theorem resume_exact {s : ReadWrite} {roots : List Cid} {elts : List (Cid × Bytes)}
    (hs : Shape s roots elts)
    (hhdr : s.header = mkHeader s.wopts.dataPadding s.wopts.indexPadding) :
    openReadWrite (some (sessionFile s)) roots s.ropts s.wopts = .ok s := by
  rw [openReadWrite]
  show resumeWithRoots (sessionFile s) roots
    (mkHeader s.wopts.dataPadding s.wopts.indexPadding) s.ropts s.wopts = _
  rw [resumeWithRoots]
  rw [if_neg (by simp [sessionFile])]
  have hoff0 : (sessionFile s).hdr.dataOffset = 0 := rfl
  simp only [hoff0, ne_eq, not_true_eq_false, if_false, Bool.false_eq_true]
  have hdrop : (sessionFile s).data.drop
      ((mkHeader s.wopts.dataPadding s.wopts.indexPadding).dataOffset -
        (sessionFile s).dataOff) = s.data := by
    have : (mkHeader s.wopts.dataPadding s.wopts.indexPadding).dataOffset -
        (sessionFile s).dataOff = 0 := by
      simp [sessionFile, hhdr]
    rw [this]
    rfl
  rw [hdrop]
  have hd : s.data = v1HeaderBytes roots 1 ++ sections elts := hs.1
  have hsz : carv1HeaderSize (⟨roots, 1⟩ : CarHeader) = (v1HeaderBytes roots 1).length := rfl
  have hfuel : (sections elts).length < (v1HeaderBytes roots 1 ++ sections elts).length + 1 := by
    simp only [List.length_append]
    omega
  have hscan := scanGo_sections s.ropts.zeroLengthSectionAsEOF elts
    (v1HeaderBytes roots 1).length [] ((v1HeaderBytes roots 1 ++ sections elts).length + 1) hfuel
  rw [hd]
  simp only [readV1Header_encode, hsz, List.drop_left, hscan]
  have hposn : (v1HeaderBytes roots 1).length + (sections elts).length = s.posn := by
    rw [hs.2.2.1, hd]
    simp
  have hidx : ([] : InsertionIndex) ++ idxOf (v1HeaderBytes roots 1).length elts = s.idx := by
    rw [List.nil_append, ← hs.2.1]
  rw [if_pos trivial, hposn, hidx, ← hd, ← hhdr]

/-- C2: for every non-empty sequence of Puts performed by a session opened
fresh and aborted before Finalize, reopening the session's file with the
same roots and padding options succeeds and rebuilds exactly the same store,
on which every block of the sequence answers `Has` true and is returned by
`Get` (under the key it was put with), and whose data cursor sits just past
the last fully written section (the end of the written data). -/
theorem claim_C2 (roots : List Cid) (ropts : ReadOptions) (wopts : WriteOptions)
    (blks : List Block) (hne : blks ≠ []) :
    putAllOk (initStore roots (mkHeader wopts.dataPadding wopts.indexPadding) ropts wopts)
      blks ∧
    openReadWrite
      (some (sessionFile
        (putList (initStore roots (mkHeader wopts.dataPadding wopts.indexPadding) ropts wopts)
          blks)))
      roots ropts wopts =
      .ok (putList (initStore roots (mkHeader wopts.dataPadding wopts.indexPadding) ropts wopts)
        blks) ∧
    (∀ b ∈ blks,
      rwHas (putList (initStore roots (mkHeader wopts.dataPadding wopts.indexPadding) ropts
        wopts) blks) b.cid = .ok true ∧
      ∃ p, rwGet (putList (initStore roots (mkHeader wopts.dataPadding wopts.indexPadding)
        ropts wopts) blks) b.cid = .ok ⟨b.cid, p⟩) ∧
    (putList (initStore roots (mkHeader wopts.dataPadding wopts.indexPadding) ropts wopts)
        blks).posn =
      (putList (initStore roots (mkHeader wopts.dataPadding wopts.indexPadding) ropts wopts)
        blks).data.length := by
  have hs0 := initStore_shape roots wopts.dataPadding wopts.indexPadding ropts wopts
  obtain ⟨elts2, hsh, hcov, hok⟩ := putList_shape_general ropts.blockstoreUseWholeCIDs blks
    (initStore roots (mkHeader wopts.dataPadding wopts.indexPadding) ropts wopts) [] hs0 rfl
  rw [List.nil_append] at hsh hcov
  obtain ⟨hph, hpr, hpw⟩ := putList_preserve blks
    (initStore roots (mkHeader wopts.dataPadding wopts.indexPadding) ropts wopts)
  have hhdr : (putList (initStore roots (mkHeader wopts.dataPadding wopts.indexPadding) ropts
      wopts) blks).header =
      mkHeader (putList (initStore roots (mkHeader wopts.dataPadding wopts.indexPadding) ropts
        wopts) blks).wopts.dataPadding
        (putList (initStore roots (mkHeader wopts.dataPadding wopts.indexPadding) ropts
          wopts) blks).wopts.indexPadding := by
    rw [hph, hpw]
    rfl
  have hres := resume_exact hsh hhdr
  rw [hpr, hpw] at hres
  refine ⟨hok, hres, ?_, hsh.2.2.1⟩
  intro b hb
  have hcb := hcov b hb
  have hpr' : (putList (initStore roots (mkHeader wopts.dataPadding wopts.indexPadding) ropts
      wopts) blks).ropts = ropts := hpr.trans rfl
  rw [← hpr'] at hcb
  refine ⟨rwHas_of_shape_covered hsh hcb, rwGet_of_shape_covered hsh hcb⟩

theorem claim_C2_witness :
    ([demoBlkA, demoBlkC] ≠ ([] : List Block)) ∧
    (putAllOk (initStore [demoRoot] (mkHeader 0 0) {} {}) [demoBlkA, demoBlkC] ∧
      openReadWrite
        (some (sessionFile (putList (initStore [demoRoot] (mkHeader 0 0) {} {})
          [demoBlkA, demoBlkC]))) [demoRoot] {} {} =
        .ok (putList (initStore [demoRoot] (mkHeader 0 0) {} {}) [demoBlkA, demoBlkC]) ∧
      (∀ b ∈ [demoBlkA, demoBlkC],
        rwHas (putList (initStore [demoRoot] (mkHeader 0 0) {} {}) [demoBlkA, demoBlkC])
          b.cid = .ok true ∧
        ∃ p, rwGet (putList (initStore [demoRoot] (mkHeader 0 0) {} {}) [demoBlkA, demoBlkC])
          b.cid = .ok ⟨b.cid, p⟩) ∧
      (putList (initStore [demoRoot] (mkHeader 0 0) {} {}) [demoBlkA, demoBlkC]).posn =
        (putList (initStore [demoRoot] (mkHeader 0 0) {} {}) [demoBlkA, demoBlkC]).data.length) :=
  ⟨by decide, claim_C2 [demoRoot] {} {} [demoBlkA, demoBlkC] (by decide)⟩

theorem sub64_small {a b : Nat} (h : b ≤ a) (h2 : a - b < 2 ^ 64) : sub64 a b = a - b := by
  rw [sub64]
  have he : 2 ^ 64 + a - b = 2 ^ 64 + (a - b) := by omega
  rw [he, Nat.add_mod_left, Nat.mod_eq_of_lt h2]

/-- C7: resuming a non-empty file whose v2 header reads with a non-zero data
offset different from the offset the configured options derive fails with
`paddingMismatch`, reporting the file's padding as expected and the
configured data padding as actual. (Offsets at least pragma + header size
and paddings below 2^64, as in every file the store itself writes.) -/
theorem claim_C7 (f : CarFile) (roots : List Cid) (ropts : ReadOptions) (wopts : WriteOptions)
    (hv : f.version = 2) (h0 : f.hdr.dataOffset ≠ 0)
    (hne : f.hdr.dataOffset ≠ pragmaSize + v2HeaderSize + wopts.dataPadding)
    (hge : pragmaSize + v2HeaderSize ≤ f.hdr.dataOffset)
    (hlt : f.hdr.dataOffset - (pragmaSize + v2HeaderSize) < 2 ^ 64)
    (hdp : wopts.dataPadding < 2 ^ 64) :
    openReadWrite (some f) roots ropts wopts =
      .error (.paddingMismatch (f.hdr.dataOffset - (pragmaSize + v2HeaderSize))
        wopts.dataPadding) := by
  have hne' : f.hdr.dataOffset ≠
      (mkHeader wopts.dataPadding wopts.indexPadding).dataOffset := by
    simpa [mkHeader] using hne
  rw [openReadWrite]
  show resumeWithRoots f roots (mkHeader wopts.dataPadding wopts.indexPadding) ropts wopts = _
  rw [resumeWithRoots, if_neg (by simp [hv]), if_pos h0, if_pos hne']
  rw [sub64_small hge hlt]
  have hcfg : (mkHeader wopts.dataPadding wopts.indexPadding).dataOffset =
      pragmaSize + v2HeaderSize + wopts.dataPadding := rfl
  rw [hcfg]
  rw [sub64_small (by omega) (by omega)]
  simp

def demoS2 : ReadWrite := putList demoS0 [demoBlkA, demoBlkC]

/-- The file left by `demoS2` after a successful Finalize. -/
def demoFinalFile : CarFile :=
  match rwFinalize demoS2 with
  | .ok (ws, _) => applyAll (sessionFile demoS2) ws
  | .error _ => sessionFile demoS2

theorem claim_C7_witness :
    (demoFinalFile.version = 2 ∧ demoFinalFile.hdr.dataOffset ≠ 0 ∧
      demoFinalFile.hdr.dataOffset ≠ pragmaSize + v2HeaderSize + 8 ∧
      pragmaSize + v2HeaderSize ≤ demoFinalFile.hdr.dataOffset ∧
      demoFinalFile.hdr.dataOffset - (pragmaSize + v2HeaderSize) < 2 ^ 64 ∧ (8 : Nat) < 2 ^ 64) ∧
    openReadWrite (some demoFinalFile) [demoRoot] {} { dataPadding := 8 } =
      .error (.paddingMismatch 0 8) := by
  refine ⟨⟨by decide, by decide, by decide, by decide, by decide, by decide⟩, ?_⟩
  have h := claim_C7 demoFinalFile [demoRoot] {} { dataPadding := 8 }
    (by decide) (by decide) (by decide) (by decide) (by decide) (by decide)
  have he : demoFinalFile.hdr.dataOffset - (pragmaSize + v2HeaderSize) = 0 := by decide
  rw [he] at h
  exact h

/-- C9: with UseWholeCIDs off, when the index yields a candidate offset for a
key's multihash and the stored section there is hash-equal to the key, Get
returns a block carrying the queried key itself as CID together with the
stored payload; moreover only the first candidate offset is ever examined —
the visitor's result over `off :: rest` equals its result over `[off]`. -/
theorem claim_C9 (b : ReadOnly) (key : Cid) (off : Nat) (rest : List Nat) (rc : Cid)
    (pl : Bytes) (hu : b.ropts.blockstoreUseWholeCIDs = false)
    (hcand : candidates b.idx key = off :: rest)
    (hread : readNode (List.drop off b.data) = some (rc, pl))
    (hh : rc.hash = key.hash) :
    b.getB key = .ok ⟨key, pl⟩ ∧
    (∀ rest2, getVisit false b.data key (off :: rest2) = getVisit false b.data key [off]) := by
  have hv : ∀ rest2, getVisit false b.data key (off :: rest2) = .ok (some pl) := by
    intro rest2
    simp only [getVisit, hread]
    simp [hh]
  constructor
  · rw [ReadOnly.getB, roGetFn]
    simp only [hcand, hu, List.isEmpty_cons, if_false, Bool.false_eq_true]
    rw [hv rest]
  · intro rest2
    rw [hv rest2, hv []]

theorem claim_C9_witness :
    ((⟨demoS2.data, demoS2.idx, {}⟩ : ReadOnly).ropts.blockstoreUseWholeCIDs = false ∧
      candidates (⟨demoS2.data, demoS2.idx, {}⟩ : ReadOnly).idx demoB = [8] ∧
      readNode (List.drop 8 (⟨demoS2.data, demoS2.idx, {}⟩ : ReadOnly).data) =
        some (demoA, [10, 11]) ∧
      demoA.hash = demoB.hash) ∧
    ((⟨demoS2.data, demoS2.idx, {}⟩ : ReadOnly).getB demoB = .ok ⟨demoB, [10, 11]⟩ ∧
      (∀ rest2, getVisit false (⟨demoS2.data, demoS2.idx, {}⟩ : ReadOnly).data demoB
          (8 :: rest2) =
        getVisit false (⟨demoS2.data, demoS2.idx, {}⟩ : ReadOnly).data demoB [8])) :=
  ⟨⟨by decide, by decide, by decide, by decide⟩,
    claim_C9 ⟨demoS2.data, demoS2.idx, {}⟩ demoB 8 [] demoA [10, 11]
      (by decide) (by decide) (by decide) (by decide)⟩

/-- C8: every write attempt on the read-only store variant — Put, PutMany or
DeleteBlock — ends in the `writeOnReadOnly` failure (a panic in the Go code,
embedded here as that error outcome) and leaves the store unchanged. -/
theorem claim_C8 (b : ReadOnly) (bl : Block) (blks : List Block) (k : Cid) :
    roPut b bl = (b, .writeOnReadOnly) ∧
    roPutMany b blks = (b, .writeOnReadOnly) ∧
    roDeleteBlock b k = (b, .writeOnReadOnly) :=
  ⟨rfl, rfl, rfl⟩

/-- C4: once Finalize has succeeded on a read-write store that has written
its data header (cursor positive, as every opened store has), every
subsequent Put, PutMany, Has, Get, GetSize and AllKeysChan call returns the
`finalized` error. -/
theorem claim_C4 (s : ReadWrite) (ws : List FsWrite) (s' : ReadWrite)
    (h : rwFinalize s = .ok (ws, s')) (hpos : 0 < s.posn) :
    (∀ blks, rwPutMany s' blks = (s', some .finalized)) ∧
    (∀ bl, rwPut s' bl = (s', some .finalized)) ∧
    (∀ k, rwHas s' k = .error .finalized) ∧
    (∀ k, rwGet s' k = .error .finalized) ∧
    (∀ k, rwGetSize s' k = .error .finalized) ∧
    rwAllKeys s' = .error .finalized := by
  rw [rwFinalize] at h
  by_cases hz : s.header.dataSize ≠ 0
  · rw [if_pos hz] at h
    simp at h
  · rw [if_neg hz] at h
    simp only [Except.ok.injEq, Prod.mk.injEq] at h
    obtain ⟨-, h2⟩ := h
    have hfin : s'.finalizedB = true := by
      rw [← h2]
      simp only [ReadWrite.finalizedB, withDataSize]
      simp
      omega
    refine ⟨?_, ?_, ?_, ?_, ?_, ?_⟩ <;>
      intros <;>
      simp [rwPutMany, rwPut, rwHas, rwGet, rwGetSize, rwAllKeys, hfin]

theorem claim_C4_witness :
    (rwFinalize demoS0 =
      .ok ((rwFinalize demoS0).toOption.elim [] (fun r => r.1),
           (rwFinalize demoS0).toOption.elim demoS0 (fun r => r.2)) ∧
      0 < demoS0.posn) ∧
    ((∀ blks, rwPutMany ((rwFinalize demoS0).toOption.elim demoS0 (fun r => r.2)) blks =
        ((rwFinalize demoS0).toOption.elim demoS0 (fun r => r.2), some .finalized)) ∧
      (∀ bl, rwPut ((rwFinalize demoS0).toOption.elim demoS0 (fun r => r.2)) bl =
        ((rwFinalize demoS0).toOption.elim demoS0 (fun r => r.2), some .finalized)) ∧
      (∀ k, rwHas ((rwFinalize demoS0).toOption.elim demoS0 (fun r => r.2)) k =
        .error .finalized) ∧
      (∀ k, rwGet ((rwFinalize demoS0).toOption.elim demoS0 (fun r => r.2)) k =
        .error .finalized) ∧
      (∀ k, rwGetSize ((rwFinalize demoS0).toOption.elim demoS0 (fun r => r.2)) k =
        .error .finalized) ∧
      rwAllKeys ((rwFinalize demoS0).toOption.elim demoS0 (fun r => r.2)) =
        .error .finalized) :=
  ⟨⟨by decide, by decide⟩,
    claim_C4 demoS0 ((rwFinalize demoS0).toOption.elim [] (fun r => r.1))
      ((rwFinalize demoS0).toOption.elim demoS0 (fun r => r.2)) (by decide) (by decide)⟩

/-- C3: on a store whose header data size is still zero, Finalize records the
data-writer position as the data size and emits exactly two file writes, in
order: the flattened index at the index offset, then the v2 header at the
pragma-size offset — so applying any proper prefix of those writes to the
session's file leaves its on-file data size at zero; if the data size is
already non-zero, Finalize fails with `finalizedTwice`. -/
theorem claim_C3 (s : ReadWrite) :
    (s.header.dataSize = 0 →
      rwFinalize s =
        .ok ([.writeIdx (withDataSize s.header s.posn).indexOffset (flatten s.idx),
              .writeHdr pragmaSize (withDataSize s.header s.posn)],
          { s with header := withDataSize s.header s.posn }) ∧
      (withDataSize s.header s.posn).dataSize = s.posn ∧
      (∀ k, k < 2 →
        (applyAll (sessionFile s)
          (([FsWrite.writeIdx (withDataSize s.header s.posn).indexOffset (flatten s.idx),
             FsWrite.writeHdr pragmaSize (withDataSize s.header s.posn)]).take k)).hdr.dataSize
          = 0)) ∧
    (s.header.dataSize ≠ 0 → rwFinalize s = .error .finalizedTwice) := by
  constructor
  · intro hz
    refine ⟨?_, ?_, ?_⟩
    · rw [rwFinalize, if_neg (by simp [hz])]
    · simp [withDataSize]
    · intro k hk
      match k, hk with
      | 0, _ => simp [applyAll, sessionFile]
      | 1, _ => simp [applyAll, sessionFile, applyFs]
  · intro hz
    rw [rwFinalize, if_pos hz]

theorem claim_C3_witness :
    demoS0.header.dataSize = 0 ∧
    (rwFinalize demoS0 =
        .ok ([.writeIdx (withDataSize demoS0.header demoS0.posn).indexOffset (flatten demoS0.idx),
              .writeHdr pragmaSize (withDataSize demoS0.header demoS0.posn)],
          { demoS0 with header := withDataSize demoS0.header demoS0.posn }) ∧
      (withDataSize demoS0.header demoS0.posn).dataSize = demoS0.posn ∧
      (∀ k, k < 2 →
        (applyAll (sessionFile demoS0)
          (([FsWrite.writeIdx (withDataSize demoS0.header demoS0.posn).indexOffset
               (flatten demoS0.idx),
             FsWrite.writeHdr pragmaSize
               (withDataSize demoS0.header demoS0.posn)]).take k)).hdr.dataSize = 0)) :=
  ⟨by decide, (claim_C3 demoS0).1 (by decide)⟩

/-- C5: on a non-finalized store with duplicate puts disallowed, a put is
skipped — store left unchanged — exactly when (whole-CID mode and the index
holds the block's exact CID) or (multihash mode and the index lookup of the
block's key succeeds); otherwise the section is written at the data cursor
and the cursor's prior position is inserted into the index. -/
theorem claim_C5 (s : ReadWrite) (bl : Block) (hfin : s.header.dataSize = 0)
    (hdup : s.wopts.blockstoreAllowDuplicatePuts = false) :
    ((s.ropts.blockstoreUseWholeCIDs = true ∧ hasExactCID s.idx bl.cid = true) ∨
      (s.ropts.blockstoreUseWholeCIDs = false ∧ (iiGet s.idx bl.cid).isSome = true) →
      rwPut s bl = (s, none)) ∧
    (¬ ((s.ropts.blockstoreUseWholeCIDs = true ∧ hasExactCID s.idx bl.cid = true) ∨
        (s.ropts.blockstoreUseWholeCIDs = false ∧ (iiGet s.idx bl.cid).isSome = true)) →
      rwPut s bl = (writtenStore s bl, none)) := by
  have hiff : skipB s bl.cid = true ↔
      ((s.ropts.blockstoreUseWholeCIDs = true ∧ hasExactCID s.idx bl.cid = true) ∨
        (s.ropts.blockstoreUseWholeCIDs = false ∧ (iiGet s.idx bl.cid).isSome = true)) := by
    rw [skipB, hdup]
    cases hu : s.ropts.blockstoreUseWholeCIDs <;>
      cases he : hasExactCID s.idx bl.cid <;>
      cases hg : (iiGet s.idx bl.cid).isSome <;> simp
  constructor
  · intro hc
    exact rwPut_skip hfin (hiff.mpr hc)
  · intro hc
    refine rwPut_write hfin ?_
    cases hsk : skipB s bl.cid
    · rfl
    · exact absurd (hiff.mp hsk) hc

theorem claim_C5_witness :
    (demoS0.header.dataSize = 0 ∧ demoS0.wopts.blockstoreAllowDuplicatePuts = false) ∧
    (((demoS0.ropts.blockstoreUseWholeCIDs = true ∧ hasExactCID demoS0.idx demoBlkA.cid = true) ∨
       (demoS0.ropts.blockstoreUseWholeCIDs = false ∧
         (iiGet demoS0.idx demoBlkA.cid).isSome = true) →
       rwPut demoS0 demoBlkA = (demoS0, none)) ∧
     (¬ ((demoS0.ropts.blockstoreUseWholeCIDs = true ∧
           hasExactCID demoS0.idx demoBlkA.cid = true) ∨
         (demoS0.ropts.blockstoreUseWholeCIDs = false ∧
           (iiGet demoS0.idx demoBlkA.cid).isSome = true)) →
       rwPut demoS0 demoBlkA = (writtenStore demoS0 demoBlkA, none))) :=
  ⟨⟨by decide, by decide⟩, claim_C5 demoS0 demoBlkA (by decide) (by decide)⟩

theorem claim_C1_witness :
    (Shape demoS0 [demoRoot] [] ∧
      (∀ b ∈ [demoBlkA, demoBlkC], ∀ cp ∈ ([] : List (Cid × Bytes)), cp.1.hash ≠ b.cid.hash) ∧
      List.Pairwise (fun a b => a.cid.hash ≠ b.cid.hash) [demoBlkA, demoBlkC] ∧
      1 < [demoBlkA, demoBlkC].length) ∧
    (putAllOk demoS0 [demoBlkA, demoBlkC] ∧
      rwHas (putList demoS0 ([demoBlkA, demoBlkC].take 2)) ([demoBlkA, demoBlkC][1].cid) =
        .ok true ∧
      rwGet (putList demoS0 ([demoBlkA, demoBlkC].take 2)) ([demoBlkA, demoBlkC][1].cid) =
        .ok ⟨[demoBlkA, demoBlkC][1].cid, [demoBlkA, demoBlkC][1].rawData⟩) :=
  ⟨⟨by decide, by decide, by decide, by decide⟩,
    claim_C1 demoS0 [demoRoot] [] [demoBlkA, demoBlkC] (by decide) (by decide) (by decide)
      1 (by decide)⟩

end GoCar
